import Mathlib

/-!
Shallow embedding of the JSON library of `src/json.h` / `src/json.cc`
(namespace `json`): the token lexer, the recursive-descent parser, the
value tree and the indenting serialiser, together with proofs about the
claims made by the specification.

Modelling conventions, stated once:

* Source text is a `List Char` (the C++ code scans a `std::string_view`
  byte by byte; for the ASCII inputs of every claim a byte is a `Char`).
* `double` payloads are modelled by exact decimal floats `D10`
  (`man * 10 ^ exp` with the mantissa not divisible by ten): every finite
  IEEE double is exactly such a number, and every decimal literal the
  parser meets denotes one, so the arithmetic the claims touch is exact.
  `D10` overapproximates `double`; the predicate `dblRepB` carves out the
  exactly representable normal-or-zero doubles, and every theorem that
  runs the parser on numbers confines its payloads to values where the
  model's `stod` (exact decimals, overflow above `DBL_MAX`, underflow
  below `DBL_MIN`) agrees with the real `std::stod` -- see the `stod`
  section comment.
* The C++ `while` loops that do not structurally recurse are given an
  explicit fuel argument, always called with enough fuel (the callers pass
  a bound derived from the input length); this keeps every definition
  kernel-computable.
* Exceptions (`throw ParsingError`) become `Except ParsingError`.
-/

set_option maxRecDepth 4000
set_option exponentiation.threshold 2000

namespace Jason

/-! ## Decimal floats: the model of `double` -/

/-- Exact decimal float `man * 10 ^ exp`. Canonical form: `man` is not
divisible by 10, and zero is `⟨0, 0⟩`; `mkD10` establishes this, so
structural equality of canonical values is numeric equality (the
"structural equality" of `double` payloads in the spec). -/
structure D10 where
  man : Int
  exp : Int
deriving DecidableEq, Repr

/-- Remove factors of ten from the mantissa, moving them into the
exponent. The fuel (any bound on the number of factors, e.g. `m.natAbs`)
makes the recursion structural. -/
def stripTens : Nat → Int → Int → D10
  | 0, m, e => ⟨m, e⟩
  | fuel + 1, m, e => if m % 10 = 0 then stripTens fuel (m / 10) (e + 1) else ⟨m, e⟩

/-- Canonical decimal float for `m * 10 ^ e`. -/
def mkD10 (m : Int) (e : Int) : D10 :=
  if m = 0 then ⟨0, 0⟩ else stripTens m.natAbs m e

/-- Integer power of ten, through `Nat` exponentiation (which the
kernel evaluates as a single big-integer operation, so magnitude
comparisons against `DBL_MAX` and `DBL_MIN` reduce without deep
recursion). -/
def pow10 (k : Nat) : Int := ((10 ^ k : Nat) : Int)

/-- Negation of a decimal float (canonical form is preserved). -/
def d10Neg (d : D10) : D10 := ⟨-d.man, d.exp⟩

/-- Absolute value of a decimal float. -/
def d10Abs (d : D10) : D10 := ⟨|d.man|, d.exp⟩

/-- Numeric strict order on decimal floats, by scaling to a common
exponent. -/
def d10Lt (a b : D10) : Bool :=
  let d := a.exp - b.exp
  if 0 ≤ d then decide (a.man * pow10 d.toNat < b.man)
  else decide (a.man < b.man * pow10 (-d).toNat)

/-- The largest finite double, `DBL_MAX = (2^53 - 1) * 2^971`, written out
so that it kernel-evaluates in one step (`dblMaxMan_eq` ties the literal
to the formula). Its last digit is 8, so `⟨dblMaxMan, 0⟩` is canonical. -/
def dblMaxMan : Int := 179769313486231570814527423731704356798070567525844996598917476803157260780028538760589558632766878171540458953514382464234321326889464182768467546703537516986049910576551282076245490090389328944075868508455133942304583236903222948165808559332123348274797826204144723168738177180919299881250404026184124858368

/-- `DBL_MAX` as a decimal float. -/
def dblMaxD : D10 := ⟨dblMaxMan, 0⟩

/-- The mantissa of the smallest positive normal double:
`DBL_MIN = 2^-1022 = dblMinMan * 10^-1022` with `dblMinMan = 5^1022`,
written out so that it kernel-evaluates in one step (`dblMinMan_eq` ties
the literal to the formula). -/
def dblMinMan : Int := 2225073858507201383090232717332404064219215980462331830553327416887204434813918195854283159012511020564067339731035811005152434161553460108856012385377718821130777993532002330479610147442583636071921565046942503734208375250806650616658158948720491179968591639648500635908770118304874799780887753749949451580451605050915399856582470818645113537935804992115981085766051992433352114352390148795699609591288891602992641511063466313393663477586513029371762047325631781485664350872122828637642044846811407613911477062801689853244110024161447421618567166150540154285084716752901903161322778896729707373123334086988983175067838846926092773977972858659654941091369095406136467568702398678315290680984617210924625396728515625

/-- `DBL_MIN` as a decimal float. -/
def dblMinD : D10 := ⟨dblMinMan, -1022⟩

/-! ## The value tree

`JsonValue` models the variant of `src/json.h:35` (`std::variant` over
null, bool, double, string, array, object). `JsonArray` and `JsonObject`
model `std::vector<JsonValue>` and `std::map<std::string, JsonValue>`
(`src/json.h:19-20`) as mutual inductives so every definition over the
tree is structurally recursive. An object list is kept sorted by key with
unique keys — the `std::map` representation invariant — which `mapInsert`
(the model of `object[key] = value`) maintains. -/

mutual
inductive JsonValue where
  | null
  | bool (b : Bool)
  | num (d : D10)
  | str (s : List Char)
  | arr (elems : JsonArray)
  | obj (members : JsonObject)
deriving DecidableEq, Repr

inductive JsonArray where
  | nil
  | cons (hd : JsonValue) (tl : JsonArray)
deriving DecidableEq, Repr

inductive JsonObject where
  | nil
  | cons (key : List Char) (val : JsonValue) (tl : JsonObject)
deriving DecidableEq, Repr
end

/-- Byte-wise lexicographic strict order on keys: `std::string`'s
`operator<` (`char_traits<char>::compare`, i.e. `memcmp` order; for the
ASCII keys of the claims, `Char.toNat` order is exactly byte order). -/
def keyLtB : List Char → List Char → Bool
  | [], [] => false
  | [], _ :: _ => true
  | _ :: _, [] => false
  | a :: as, b :: bs =>
    if a.toNat < b.toNat then true
    else if b.toNat < a.toNat then false
    else keyLtB as bs

/-- The model of `object[std::move(key)] = value` on a `std::map`: insert
at the sorted position, or overwrite the value of an equal key (the map
keeps the original key object). -/
def mapInsert (k : List Char) (v : JsonValue) : JsonObject → JsonObject
  | .nil => .cons k v .nil
  | .cons k2 v2 rest =>
    if keyLtB k k2 then .cons k v (.cons k2 v2 rest)
    else if keyLtB k2 k then .cons k2 v2 (mapInsert k v rest)
    else .cons k2 v rest

/-- `std::vector::push_back`. -/
def arrSnoc : JsonArray → JsonValue → JsonArray
  | .nil, v => .cons v .nil
  | .cons h t, v => .cons h (arrSnoc t v)

/-! ## Tokens (`src/json.cc:9-31`) -/

/-- `detail::TokenType` (`src/json.cc:9`). `kTrue`/`kFalse`/`kNull` stand
for the source's `True`/`False`/`Null`. -/
inductive TokenType where
  | leftBrace
  | rightBrace
  | leftBracket
  | rightBracket
  | comma
  | colon
  | string
  | number
  | kTrue
  | kFalse
  | kNull
  | eof
  | unknown
deriving DecidableEq, Repr

/-- `detail::Token` (`src/json.cc:25`): kind, exact lexeme, and the
1-based line/column captured at the token's start. -/
structure Token where
  type : TokenType
  lexeme : List Char
  line : Nat
  col : Nat
deriving DecidableEq, Repr

/-! ## The lexer (`src/json.cc:195-370`)

A lexer state is the remaining input together with the running
`lineNum`/`colNum` counters; each scanner returns what it produced plus
the state after it. The counters are modelled exactly as the source
updates them — including the quirk that a newline consumed inside a string
or block comment sets `colNum = 1` *before* the `advance()` that then
bumps it to 2 (`src/json.cc:244-248`, `274-277`), while the ordinary
whitespace newline case advances first and then resets (`src/json.cc:230-234`). -/

/-- C `isdigit` on ASCII. -/
def isDigitC (c : Char) : Bool := decide (48 ≤ c.toNat ∧ c.toNat ≤ 57)

/-- C `isalpha` in the "C" locale. -/
def isAlphaC (c : Char) : Bool :=
  decide ((65 ≤ c.toNat ∧ c.toNat ≤ 90) ∨ (97 ≤ c.toNat ∧ c.toNat ≤ 122))

/-- The single-line-comment loop of `skipWhitespaceAndComments`
(`src/json.cc:236-239`): consume up to, but not including, the next
newline (or to end of input), counting columns. -/
def lineCmt : List Char → Nat → List Char × Nat
  | [], c => ([], c)
  | ch :: rest, c => if ch = '\n' then (ch :: rest, c) else lineCmt rest (c + 1)

/-- `peekNext() == '/'`: whether the head of a list is a slash. -/
def peekSlash : List Char → Bool
  | '/' :: _ => true
  | _ => false

/-- The block-comment loop of `skipWhitespaceAndComments`
(`src/json.cc:240-255`), entered after `/*` is consumed: scan to the
closing `*/` and consume it, or stop at end of input (truncated comment —
no error). A newline sets the column to 1 and the `advance()` then makes
it 2, as in the source. -/
def blockCmt : List Char → Nat → Nat → List Char × Nat × Nat
  | [], l, c => ([], l, c)
  | ch :: rest, l, c =>
    if ch = '*' ∧ peekSlash rest then (rest.tail, l, c + 2)
    else if ch = '\n' then blockCmt rest (l + 1) 2
    else blockCmt rest l (c + 1)

/-- `Lexer::skipWhitespaceAndComments` (`src/json.cc:222-263`). The fuel
bounds the number of loop iterations; every caller passes
`length + 1`, which suffices because each iteration consumes at least one
character. -/
def skipWhitespaceAndComments : Nat → List Char → Nat → Nat → List Char × Nat × Nat
  | 0, cs, l, c => (cs, l, c)
  | fuel + 1, cs, l, c =>
    match cs with
    | [] => ([], l, c)
    | ch :: rest =>
      if ch = ' ' ∨ ch = '\r' ∨ ch = '\t' then
        skipWhitespaceAndComments fuel rest l (c + 1)
      else if ch = '\n' then
        skipWhitespaceAndComments fuel rest (l + 1) 1
      else if ch = '/' then
        match rest with
        | '/' :: _ =>
          let p := lineCmt (ch :: rest) c
          skipWhitespaceAndComments fuel p.1 l p.2
        | '*' :: rest2 =>
          match blockCmt rest2 l (c + 2) with
          | (cs2, l2, c2) => skipWhitespaceAndComments fuel cs2 l2 c2
        | _ => (ch :: rest, l, c)
      else (ch :: rest, l, c)

/-- The digit loop shared by the number scanner (`while isdigit(peek())
advance()`): the consumed digits and the rest. -/
def takeDigits : List Char → List Char × List Char
  | [] => ([], [])
  | ch :: rest =>
    if isDigitC ch then
      let p := takeDigits rest
      (ch :: p.1, p.2)
    else ([], ch :: rest)

/-- The alphabetic loop of `identifierToken` (`src/json.cc:319-321`). -/
def takeAlpha : List Char → List Char × List Char
  | [] => ([], [])
  | ch :: rest =>
    if isAlphaC ch then
      let p := takeAlpha rest
      (ch :: p.1, p.2)
    else ([], ch :: rest)

/-- `isdigit(peekNext())`: whether the head of a list is a digit. -/
def peekDigit : List Char → Bool
  | r :: _ => isDigitC r
  | [] => false

/-- The fraction step of `Lexer::numberToken` (`src/json.cc:300-305`):
a `.` is consumed only when a digit follows it. Returns the consumed
lexeme part, the rest, and the new column. -/
def fracScan : List Char → Nat → List Char × List Char × Nat
  | [], c => ([], [], c)
  | ch :: rest, c =>
    if ch = '.' ∧ peekDigit rest then
      let p := takeDigits rest
      ('.' :: p.1, p.2, c + 1 + p.1.length)
    else ([], ch :: rest, c)

/-- The exponent step of `Lexer::numberToken` (`src/json.cc:306-314`):
an `e`/`E` is consumed unconditionally, then an optional sign, then
digits (possibly none). -/
def expScan : List Char → Nat → List Char × List Char × Nat
  | [], c => ([], [], c)
  | ch :: rest, c =>
    if ch = 'e' ∨ ch = 'E' then
      match rest with
      | s :: rr =>
        if s = '+' ∨ s = '-' then
          let p := takeDigits rr
          (ch :: s :: p.1, p.2, c + 2 + p.1.length)
        else
          let p := takeDigits rest
          (ch :: p.1, p.2, c + 1 + p.1.length)
      | [] => ([ch], [], c + 1)
    else ([], ch :: rest, c)

/-- `Lexer::numberToken` (`src/json.cc:295-316`) after its first
character was consumed by `nextToken`: digits, optional fraction,
optional exponent. Returns the remainder of the lexeme, the rest of the
input, and the new column. -/
def numberScan (cs : List Char) (c : Nat) : List Char × List Char × Nat :=
  let p1 := takeDigits cs
  let p2 := fracScan p1.2 (c + p1.1.length)
  let p3 := expScan p2.2.1 p2.2.2
  (p1.1 ++ p2.1 ++ p3.1, p3.2.1, p3.2.2)

/-- The string loop of `Lexer::stringToken` (`src/json.cc:273-283`),
entered after the opening quote: scan to the next unescaped `"`. Returns
`some content` (the raw characters before the closing quote, escape pairs
kept verbatim) and consumes the closing quote, or `none` when end of
input is reached first (the unterminated case); always also the rest of
the input and the line/column after scanning. A backslash makes the
following character be skipped without interpretation; a newline is
counted (with the column quirk described above). -/
def strScan : List Char → Nat → Nat → Option (List Char) × List Char × Nat × Nat
  | [], l, c => (none, [], l, c)
  | '"' :: rest, l, c => (some [], rest, l, c + 1)
  | '\\' :: [], l, c => (none, [], l, c + 1)
  | '\\' :: ch2 :: rest2, l, c =>
    let p := strScan rest2 l (c + 2)
    (p.1.map (fun t => '\\' :: ch2 :: t), p.2)
  | ch :: rest, l, c =>
    let l2 := if ch = '\n' then l + 1 else l
    let c2 := if ch = '\n' then 2 else c + 1
    let p := strScan rest l2 c2
    (p.1.map (fun t => ch :: t), p.2)

/-- The fixed diagnostic lexeme of an unterminated string
(`src/json.cc:287`). -/
def unterminatedLexeme : List Char := "Unterminated string.".data

/-- `Lexer::nextToken` (`src/json.cc:340-370`): skip whitespace and
comments, remember the token's start position, and dispatch on the first
character. Returns the token and the lexer state after it. -/
def nextToken (cs : List Char) (l c : Nat) : Token × List Char × Nat × Nat :=
  match skipWhitespaceAndComments (cs.length + 1) cs l c with
  | (cs1, l1, c1) =>
    match cs1 with
    | [] => (⟨.eof, [], l1, c1⟩, [], l1, c1)
    | ch :: rest =>
      if ch = '\x7b' then (⟨.leftBrace, [ch], l1, c1⟩, rest, l1, c1 + 1)
      else if ch = '\x7d' then (⟨.rightBrace, [ch], l1, c1⟩, rest, l1, c1 + 1)
      else if ch = '[' then (⟨.leftBracket, [ch], l1, c1⟩, rest, l1, c1 + 1)
      else if ch = ']' then (⟨.rightBracket, [ch], l1, c1⟩, rest, l1, c1 + 1)
      else if ch = ',' then (⟨.comma, [ch], l1, c1⟩, rest, l1, c1 + 1)
      else if ch = ':' then (⟨.colon, [ch], l1, c1⟩, rest, l1, c1 + 1)
      else if ch = '"' then
        match strScan rest l1 (c1 + 1) with
        | (some content, rest2, l2, c2) =>
          (⟨.string, '"' :: (content ++ ['"']), l1, c1⟩, rest2, l2, c2)
        | (none, rest2, l2, c2) =>
          (⟨.unknown, unterminatedLexeme, l1, c1⟩, rest2, l2, c2)
      else if isDigitC ch ∨ ch = '-' then
        match numberScan rest (c1 + 1) with
        | (lex, rest2, c2) => (⟨.number, ch :: lex, l1, c1⟩, rest2, l1, c2)
      else if isAlphaC ch then
        match takeAlpha rest with
        | (lex, rest2) =>
          let text := ch :: lex
          let t : TokenType :=
            if text = "true".data then .kTrue
            else if text = "false".data then .kFalse
            else if text = "null".data then .kNull
            else .unknown
          (⟨t, text, l1, c1⟩, rest2, l1, c1 + text.length)
      else (⟨.unknown, [ch], l1, c1⟩, rest, l1, c1 + 1)

/-! ## Errors and the parser (`src/json.cc:84-97`, `371-521`) -/

/-- `ParsingError` (`src/json.cc:84`): message plus the 1-based
line/column it carries. -/
structure ParsingError where
  message : String
  line : Nat
  col : Nat
deriving DecidableEq, Repr

/-- The parser's state: the lexer state plus the one-token lookahead
`currentToken`. (`previousToken` is assigned but never read in the
source, so it is omitted.) -/
structure PState where
  rest : List Char
  line : Nat
  col : Nat
  cur : Token
deriving DecidableEq, Repr

/-- `Parser::advance` (`src/json.cc:376-384`): pull the next token and
fail fast when it is `Unknown`. -/
def advance (st : PState) : Except ParsingError PState :=
  match nextToken st.rest st.line st.col with
  | (tok, rest2, l2, c2) =>
    if tok.type = .unknown then
      .error ⟨"Unexpected character or unterminated literal", tok.line, tok.col⟩
    else .ok ⟨rest2, l2, c2, tok⟩

/-- `Parser::consume` (`src/json.cc:385-392`). -/
def consume (t : TokenType) (msg : String) (st : PState) : Except ParsingError PState :=
  if st.cur.type = t then advance st
  else .error ⟨msg, st.cur.line, st.cur.col⟩

/-! ### `std::stod` (used by `Parser::parseNumber`, `src/json.cc:445`)

Modelled from the C `strtod` decimal grammar the lexer's number lexemes
can reach: optional sign, digits with an optional point (at least one
digit overall), and an exponent part that only counts when it has at
least one digit. The result is the exact decimal value (see the `D10`
note at the top), and both `out_of_range` error paths of
libstdc++'s `std::stod` (glibc `strtod` sets `ERANGE`, `std::stod`
throws) are modelled: overflow when the magnitude exceeds `DBL_MAX`,
and underflow when a nonzero result lies below `DBL_MIN` (the smallest
positive normal double -- glibc flags subnormal results, so e.g.
`1e-310` makes the real parser fail, and this model too).

The model performs no binary rounding: it is faithful to `std::stod`
exactly on lexemes whose decimal value is zero or an exactly
representable normal double (where `strtod`'s correctly-rounded result
is the value itself), and on the error cutoffs as evaluated at such
values (`10^309` overflows in both, every in-range exact double errors
in neither). Every theorem below that runs the parser on a number
confines its number payloads to this domain: integers up to `2^53` in
claim C9 (`stod_neg_digits`), and `dblRepB` payloads in claim C1
(through `numberOkB`). Hex forms and `inf`/`nan` cannot arise from this
lexer's lexemes. Returns the value and the number of characters
consumed (`stod`'s `pos` out-parameter). -/

/-- Result of `std::stod`: a value and consumed-count, or one of its two
exceptions. -/
inductive StodResult where
  | ok (val : D10) (pos : Nat)
  | invalidArgument
  | outOfRange
deriving DecidableEq, Repr

/-- Numeric value of a digit character. -/
def digitVal (c : Char) : Nat := c.toNat - 48

/-- Value of a digit string, most significant first. -/
def digitsToNat : List Char → Nat → Nat
  | [], acc => acc
  | c :: rest, acc => digitsToNat rest (acc * 10 + digitVal c)

/-- The exponent part of the `strtod` scan: its signed value and how many
characters it consumes (zero when there is no well-formed exponent). -/
def stodExp : List Char → Int × Nat
  | [] => (0, 0)
  | e :: rr =>
    if e = 'e' ∨ e = 'E' then
      match rr with
      | s :: rr2 =>
        if s = '+' ∨ s = '-' then
          let p := takeDigits rr2
          if p.1.isEmpty then (0, 0)
          else
            let v : Int := digitsToNat p.1 0
            (if s = '-' then -v else v, 2 + p.1.length)
        else
          let p := takeDigits rr
          if p.1.isEmpty then (0, 0) else ((digitsToNat p.1 0 : Int), 1 + p.1.length)
      | [] => (0, 0)
    else (0, 0)

/-- `std::stod` on a lexeme (see the section comment). The exponent
test in front of the underflow comparison is only a shortcut: a nonzero
canonical mantissa is at least 1, so an exponent of `-307` or more puts
the magnitude at `10^-307` or more, above `DBL_MIN` — the comparison
against `dblMinD` can only matter below it. -/
def stod (cs : List Char) : StodResult :=
  let sp : Int × List Char × Nat :=
    match cs with
    | '-' :: r => (-1, r, 1)
    | '+' :: r => (1, r, 1)
    | _ => (1, cs, 0)
  match sp with
  | (sg, cs1, n0) =>
    let p1 := takeDigits cs1
    let fr : List Char × List Char × Nat :=
      match p1.2 with
      | '.' :: rr =>
        let p := takeDigits rr
        (p.1, p.2, 1 + p.1.length)
      | _ => ([], p1.2, 0)
    match fr with
    | (d2, r2, nf) =>
      if p1.1.isEmpty ∧ d2.isEmpty then .invalidArgument
      else
        match stodExp r2 with
        | (xv, nx) =>
          let val := mkD10 (sg * (digitsToNat (p1.1 ++ d2) 0 : Int)) (xv - d2.length)
          if d10Lt dblMaxD (d10Abs val) then .outOfRange
          else if ¬val.man = 0 ∧ val.exp < -307 ∧ d10Lt (d10Abs val) dblMinD = true then
            .outOfRange
          else .ok val (n0 + p1.1.length + nf + nx)

/-! ### The recursive-descent parser (`src/json.cc:393-508`) -/

/-- The escape table of `Parser::parseString` (`src/json.cc:419-432`):
the eight named escapes map to their literal characters, anything else is
kept as is (the backslash is dropped). -/
def escChar (c : Char) : Char :=
  if c = '"' then '"'
  else if c = '\\' then '\\'
  else if c = '/' then '/'
  else if c = 'b' then '\x08'
  else if c = 'f' then '\x0c'
  else if c = 'n' then '\n'
  else if c = 'r' then '\r'
  else if c = 't' then '\t'
  else c

/-- The decode loop of `Parser::parseString` (`src/json.cc:416-436`) over
the lexeme's content (the lexeme without its quotes): a backslash that is
not the last content character consumes the next character through
`escChar`; a trailing lone backslash is copied literally (the source's
`i + 1 < view.length() - 1` guard). -/
def decodeEsc : List Char → List Char
  | [] => []
  | '\\' :: [] => ['\\']
  | '\\' :: c2 :: rest2 => escChar c2 :: decodeEsc rest2
  | c :: rest => c :: decodeEsc rest

/-- `substr(1, length - 2)`: a string lexeme without its surrounding
quotes (`src/json.cc:414-415`, `473-474`). -/
def innerLexeme (lex : List Char) : List Char := (lex.drop 1).take (lex.length - 2)

/-- `Parser::parseString` (`src/json.cc:409-439`): strip the quotes,
decode escapes, then advance. -/
def parseString (st : PState) : Except ParsingError (JsonValue × PState) :=
  let result := decodeEsc (innerLexeme st.cur.lexeme)
  match advance st with
  | .error e => .error e
  | .ok st2 => .ok (.str result, st2)

/-- `Parser::parseNumber` (`src/json.cc:440-461`): convert the lexeme
with `stod`; the conversion must consume the whole lexeme. -/
def parseNumber (st : PState) : Except ParsingError (JsonValue × PState) :=
  match stod st.cur.lexeme with
  | .invalidArgument => .error ⟨"Invalid number format.", st.cur.line, st.cur.col⟩
  | .outOfRange =>
    .error ⟨"Number is out of range for a double.", st.cur.line, st.cur.col⟩
  | .ok v pos =>
    if pos ≠ st.cur.lexeme.length then
      .error ⟨"Invalid characters in number literal.", st.cur.line, st.cur.col⟩
    else
      match advance st with
      | .error e => .error e
      | .ok st2 => .ok (.num v, st2)

/- `Parser::parseValue` / `parseObject` / `parseArray`
(`src/json.cc:393-508`). The member and element `while (true)` loops are
`objLoop` and `arrLoop`. The fuel bounds the recursion depth and loop
count; `parse` passes `3 * length + 8`, which suffices because every
unit of nesting or iteration consumes input (at worst one character per
three fuel, for `[`). -/
mutual
/-- `Parser::parseValue` (`src/json.cc:393-408`): dispatch on the current
token's kind. -/
def parseValue : Nat → PState → Except ParsingError (JsonValue × PState)
  | 0, st => .error ⟨"fuel exhausted", st.cur.line, st.cur.col⟩
  | fuel + 1, st =>
    match st.cur.type with
    | .leftBrace =>
      match parseObject fuel st with
      | .error e => .error e
      | .ok p => .ok (.obj p.1, p.2)
    | .leftBracket =>
      match parseArray fuel st with
      | .error e => .error e
      | .ok p => .ok (.arr p.1, p.2)
    | .string => parseString st
    | .number => parseNumber st
    | .kTrue =>
      match advance st with
      | .error e => .error e
      | .ok st2 => .ok (.bool true, st2)
    | .kFalse =>
      match advance st with
      | .error e => .error e
      | .ok st2 => .ok (.bool false, st2)
    | .kNull =>
      match advance st with
      | .error e => .error e
      | .ok st2 => .ok (.null, st2)
    | _ =>
      .error ⟨"Expected a value (object, array, string, number, true, false, or null).",
              st.cur.line, st.cur.col⟩

/-- `Parser::parseObject` (`src/json.cc:462-490`). -/
def parseObject : Nat → PState → Except ParsingError (JsonObject × PState)
  | 0, st => .error ⟨"fuel exhausted", st.cur.line, st.cur.col⟩
  | fuel + 1, st =>
    match consume .leftBrace "Expected '\x7b' to start an object." st with
    | .error e => .error e
    | .ok st1 =>
      if st1.cur.type = .rightBrace then
        match consume .rightBrace "Expected '\x7d' to end an object." st1 with
        | .error e => .error e
        | .ok st2 => .ok (.nil, st2)
      else
        match objLoop fuel .nil st1 with
        | .error e => .error e
        | .ok p =>
          match consume .rightBrace "Expected '\x7d' to end an object." p.2 with
          | .error e => .error e
          | .ok st2 => .ok (p.1, st2)

/-- The member loop of `Parser::parseObject` (`src/json.cc:468-485`). -/
def objLoop : Nat → JsonObject → PState → Except ParsingError (JsonObject × PState)
  | 0, _, st => .error ⟨"fuel exhausted", st.cur.line, st.cur.col⟩
  | fuel + 1, acc, st =>
    if st.cur.type = .string then
      let key := innerLexeme st.cur.lexeme
      match advance st with
      | .error e => .error e
      | .ok st1 =>
        match consume .colon "Expected ':' after object key." st1 with
        | .error e => .error e
        | .ok st2 =>
          match parseValue fuel st2 with
          | .error e => .error e
          | .ok p =>
            let acc2 := mapInsert key p.1 acc
            if p.2.cur.type = .rightBrace then .ok (acc2, p.2)
            else
              match consume .comma "Expected ',' or '\x7d' after object member." p.2 with
              | .error e => .error e
              | .ok st3 => objLoop fuel acc2 st3
    else .error ⟨"Expected a string key for object member.", st.cur.line, st.cur.col⟩

/-- `Parser::parseArray` (`src/json.cc:491-508`). -/
def parseArray : Nat → PState → Except ParsingError (JsonArray × PState)
  | 0, st => .error ⟨"fuel exhausted", st.cur.line, st.cur.col⟩
  | fuel + 1, st =>
    match consume .leftBracket "Expected '[' to start an array." st with
    | .error e => .error e
    | .ok st1 =>
      if st1.cur.type = .rightBracket then
        match consume .rightBracket "Expected ']' to end an array." st1 with
        | .error e => .error e
        | .ok st2 => .ok (.nil, st2)
      else
        match arrLoop fuel .nil st1 with
        | .error e => .error e
        | .ok p =>
          match consume .rightBracket "Expected ']' to end an array." p.2 with
          | .error e => .error e
          | .ok st2 => .ok (p.1, st2)

/-- The element loop of `Parser::parseArray` (`src/json.cc:497-504`). -/
def arrLoop : Nat → JsonArray → PState → Except ParsingError (JsonArray × PState)
  | 0, _, st => .error ⟨"fuel exhausted", st.cur.line, st.cur.col⟩
  | fuel + 1, acc, st =>
    match parseValue fuel st with
    | .error e => .error e
    | .ok p =>
      let acc2 := arrSnoc acc p.1
      if p.2.cur.type = .rightBracket then .ok (acc2, p.2)
      else
        match consume .comma "Expected ',' or ']' after array element." p.2 with
        | .error e => .error e
        | .ok st2 => arrLoop fuel acc2 st2
end

/-- The UTF-8 byte-order mark `EF BB BF` (`src/json.cc:512-514`), as the
byte-level characters the source compares. -/
def bomChars : List Char := [Char.ofNat 0xEF, Char.ofNat 0xBB, Char.ofNat 0xBF]

/-- The BOM strip of `Parser::parse` (`src/json.cc:511-517`). -/
def stripBOM (cs : List Char) : List Char :=
  if cs.take 3 = bomChars then cs.drop 3 else cs

/-- `Parser::parse` / the public `json::parse` (`src/json.cc:509-521`):
strip a BOM, prime one token (the constructor's `advance()`), parse
exactly one value and return it — the remaining input is not checked. -/
def parse (source : List Char) : Except ParsingError JsonValue :=
  let src := stripBOM source
  match advance ⟨src, 1, 1, ⟨.eof, [], 1, 1⟩⟩ with
  | .error e => .error e
  | .ok st =>
    match parseValue (3 * src.length + 8) st with
    | .error e => .error e
    | .ok p => .ok p.1

/-- `json::parse` on a Lean string literal. -/
def parseS (s : String) : Except ParsingError JsonValue := parse s.data

/-! ## The serialiser (`src/json.cc:522-564`) -/

/-- Drop trailing `'0'` characters (the `%g` zero stripping). -/
def stripZeroTail (cs : List Char) : List Char :=
  (cs.reverse.dropWhile (fun c => c = '0')).reverse

/-- Exponent digits of `%g`: at least two. -/
def expDigits (n : Nat) : List Char :=
  let ds := Nat.toDigits 10 n
  if ds.length < 2 then '0' :: ds else ds

/-- Modelled from `os << arg` on a `double` (`src/json.cc:531-532`): the
default stream rendering, i.e. `printf "%g"` with precision 6 — round to
six significant digits (ties to even), use scientific notation when the
decimal exponent is below -4 or at least 6, and strip trailing zeros.
Exact for every `D10`; it agrees with the platform wherever the mantissa
fits a double (all numbers the theorems below evaluate). -/
def renderNumber (d : D10) : List Char :=
  if d.man = 0 then ['0']
  else
    let mAbs := d.man.natAbs
    let nd := (Nat.toDigits 10 mAbs).length
    let x0 : Int := (nd : Int) - 1 + d.exp
    let m6 : Nat :=
      if nd ≤ 6 then mAbs * 10 ^ (6 - nd)
      else
        let p := 10 ^ (nd - 6)
        let q := mAbs / p
        let r := mAbs % p
        if p < 2 * r then q + 1
        else if 2 * r < p then q
        else if q % 2 = 0 then q else q + 1
    let mx : Nat × Int := if m6 = 10 ^ 6 then (10 ^ 5, x0 + 1) else (m6, x0)
    match mx with
    | (m, x) =>
      let ds6 := Nat.toDigits 10 m
      let body : List Char :=
        if x < -4 ∨ 6 ≤ x then
          let frac := stripZeroTail (ds6.drop 1)
          ds6.take 1 ++ (if frac.isEmpty then [] else '.' :: frac)
            ++ 'e' :: (if x < 0 then '-' else '+') :: expDigits x.natAbs
        else if 0 ≤ x then
          let ip := ds6.take (x.toNat + 1)
          let frac := stripZeroTail (ds6.drop (x.toNat + 1))
          ip ++ (if frac.isEmpty then [] else '.' :: frac)
        else
          let frac := stripZeroTail ds6
          '0' :: '.' :: (List.replicate (x.natAbs - 1) '0' ++ frac)
      (if d.man < 0 then ['-'] else []) ++ body

/-- `std::string(n, ' ')`: the indentation runs. -/
def spaces (n : Nat) : List Char := List.replicate n ' '

mutual
/-- `json::serialise` (`src/json.cc:522-564`): null/bool/number/raw
string (no output escaping), arrays and objects one element per line,
two more spaces per level, a comma after every element but the last.
`serArrItems`/`serObjItems` are the element/member loops. -/
def serialise : JsonValue → Nat → List Char
  | .null, _ => "null".data
  | .bool true, _ => "true".data
  | .bool false, _ => "false".data
  | .num d, _ => renderNumber d
  | .str s, _ => '"' :: s ++ ['"']
  | .arr es, ind => '[' :: '\n' :: (serArrItems es ind ++ spaces ind ++ [']'])
  | .obj ms, ind => '\x7b' :: '\n' :: (serObjItems ms ind ++ spaces ind ++ ['\x7d'])

/-- The element loop of the array case (`src/json.cc:537-545`). -/
def serArrItems : JsonArray → Nat → List Char
  | .nil, _ => []
  | .cons e .nil, ind => spaces (ind + 2) ++ serialise e (ind + 2) ++ ['\n']
  | .cons e (.cons f tl), ind =>
    spaces (ind + 2) ++ serialise e (ind + 2) ++ [',', '\n']
      ++ serArrItems (.cons f tl) ind

/-- The member loop of the object case (`src/json.cc:548-559`). -/
def serObjItems : JsonObject → Nat → List Char
  | .nil, _ => []
  | .cons k v .nil, ind =>
    spaces (ind + 2) ++ '"' :: k ++ '"' :: ':' :: ' ' :: (serialise v (ind + 2) ++ ['\n'])
  | .cons k v (.cons k2 v2 tl), ind =>
    spaces (ind + 2) ++ '"' :: k ++ '"' :: ':' :: ' ' :: (serialise v (ind + 2) ++ [',', '\n'])
      ++ serObjItems (.cons k2 v2 tl) ind
end

/-! ## Predicates used by the claim statements -/

/-- Key order of a parsed/constructed object: each adjacent pair of keys
strictly increases (the `std::map` iteration-order invariant). -/
def objKeysSorted : JsonObject → Bool
  | .nil => true
  | .cons _ _ .nil => true
  | .cons k _ (.cons k2 v2 tl) => keyLtB k k2 && objKeysSorted (.cons k2 v2 tl)

/-- `k` is strictly below the first key of the object (trivially true of
the empty object). -/
def objHeadLt (k : List Char) : JsonObject → Bool
  | .nil => true
  | .cons k2 _ _ => keyLtB k k2

mutual
/-- Every object anywhere in the value has strictly increasing keys: the
representation invariant `std::map` maintains for every `JsonObject` a
C++ program can hold. -/
def wfSortedV : JsonValue → Bool
  | .null => true
  | .bool _ => true
  | .num _ => true
  | .str _ => true
  | .arr es => wfSortedA es
  | .obj ms => objKeysSorted ms && wfSortedO ms

/-- `wfSortedV` over an array's elements. -/
def wfSortedA : JsonArray → Bool
  | .nil => true
  | .cons e tl => wfSortedV e && wfSortedA tl

/-- `wfSortedV` over an object's member values. -/
def wfSortedO : JsonObject → Bool
  | .nil => true
  | .cons _ v tl => wfSortedV v && wfSortedO tl
end

/-- A string character that serialises verbatim and re-lexes as itself:
not a quote, not a backslash, not a C0 control character (the claim's
hypothesis). -/
def cleanChar (c : Char) : Bool :=
  decide (c ≠ '"') && decide (c ≠ '\\') && decide (32 ≤ c.toNat)

/-- All characters of a string payload or key are clean. -/
def cleanStr (s : List Char) : Bool := s.all cleanChar

mutual
/-- Every string payload and every object key in the value is clean. -/
def cleanV : JsonValue → Bool
  | .null => true
  | .bool _ => true
  | .num _ => true
  | .str s => cleanStr s
  | .arr es => cleanA es
  | .obj ms => cleanO ms

/-- `cleanV` over an array's elements. -/
def cleanA : JsonArray → Bool
  | .nil => true
  | .cons e tl => cleanV e && cleanA tl

/-- `cleanV` over an object's keys and member values. -/
def cleanO : JsonObject → Bool
  | .nil => true
  | .cons k v tl => cleanStr k && cleanV v && cleanO tl
end

/-- The rendered number has the shape of a single number token: an
optional leading minus or digit, and `numberScan` consumes every
remaining character. -/
def isNumLexB : List Char → Bool
  | [] => false
  | c :: s => (isDigitC c || c = '-') && (numberScan s 0).2.1.isEmpty

/-- The odd part of a natural number (the number with its factors of
two removed); the fuel makes the recursion structural, any bound on the
number of factors (such as the number itself) suffices. -/
def oddPart : Nat → Nat → Nat
  | 0, n => n
  | fuel + 1, n => if n % 2 = 0 ∧ 0 < n then oddPart fuel (n / 2) else n

/-- The decimal value is exactly a zero or *normal* IEEE-754 double:
`±odd * 2^k` with `odd < 2^53` and magnitude within
`[DBL_MIN, DBL_MAX]`. These are exactly the nonsub-normal values a C++
`double` variable can hold, and on them `std::stod` performs no
rounding and raises no error. (The model's `D10` overapproximates the
payload type `double`, so this is a representation invariant, like
sortedness for `std::map`.) For `man * 10^exp` with `exp < 0` the value
is dyadic iff `5^(-exp)` divides the mantissa. -/
def dblRepB (d : D10) : Bool :=
  if d.man = 0 then true
  else
    let odd := oddPart d.man.natAbs d.man.natAbs
    let dy : Bool :=
      if 0 ≤ d.exp then decide (odd * 5 ^ d.exp.toNat < 2 ^ 53)
      else decide (odd % 5 ^ (-d.exp).toNat = 0 ∧ odd / 5 ^ (-d.exp).toNat < 2 ^ 53)
    dy && (decide (-307 ≤ d.exp) || !d10Lt (d10Abs d) dblMinD)
       && !d10Lt dblMaxD (d10Abs d)

/-- A number payload that is exactly a representable (normal or zero)
double — as every payload of a real C++ `JsonValue` is — and survives
the serialiser's `%g` rendering: the rendering lexes as one number
token and `stod` reads back exactly the same value. (`1234567` fails
the read-back — six significant digits — which is what breaks the
unrestricted round-trip claim; a subnormal payload fails it through
`stod`'s underflow error.) -/
def numberOkB (d : D10) : Bool :=
  isNumLexB (renderNumber d)
    && decide (stod (renderNumber d) = .ok d (renderNumber d).length)
    && dblRepB d

mutual
/-- Every number payload in the value satisfies `numberOkB`. -/
def numsOkV : JsonValue → Bool
  | .null => true
  | .bool _ => true
  | .num d => numberOkB d
  | .str _ => true
  | .arr es => numsOkA es
  | .obj ms => numsOkO ms

/-- `numsOkV` over an array's elements. -/
def numsOkA : JsonArray → Bool
  | .nil => true
  | .cons e tl => numsOkV e && numsOkA tl

/-- `numsOkV` over an object's member values. -/
def numsOkO : JsonObject → Bool
  | .nil => true
  | .cons _ v tl => numsOkV v && numsOkO tl
end

/-- 1-based line of the position right after `consumed` characters of the
source: one more than the newlines seen. (Independent yardstick for the
error-position claim.) -/
def trueLine (consumed : List Char) : Nat := 1 + consumed.count '\n'

/-- 1-based column of the position right after `consumed` characters of
the source: one more than the characters since the last newline. -/
def trueCol (consumed : List Char) : Nat :=
  (consumed.reverse.takeWhile (fun c => !(c = '\n'))).length + 1

/-- Whether the text contains a `*/` pair (what closes a block comment). -/
def hasStarSlash : List Char → Bool
  | [] => false
  | ch :: r => (ch = '*' && peekSlash r) || hasStarSlash r

/-- A character that cannot extend a number token in any of the number
scanner's phases (and `true` for end of input): what may legitimately
follow a complete number lexeme. -/
def stopNum : List Char → Bool
  | [] => true
  | ch :: _ => !(isDigitC ch || ch = '.' || ch = 'e' || ch = 'E')

/-- All characters are digits. -/
def allDigits (s : List Char) : Bool := s.all isDigitC

/-! ## Helper notions for the round-trip proof (claim C1) -/

/-- The text that may follow a serialised value inside a larger
serialisation: nothing (top level), a comma (before the newline and the
next element/member), or a newline, indentation and the closing bracket
or brace. The parser's one-token lookahead always lexes cleanly from
such a continuation. -/
def RestTok (rest : List Char) : Prop :=
  rest = [] ∨ (∃ r, rest = ',' :: r) ∨
    (∃ k b tail, rest = '\n' :: (spaces k ++ b :: tail) ∧ (b = ']' ∨ b = '\x7d'))

/-- Token kinds that can start a value. -/
def valueStart : TokenType → Bool
  | .leftBrace => true
  | .leftBracket => true
  | .string => true
  | .number => true
  | .kTrue => true
  | .kFalse => true
  | .kNull => true
  | _ => false

/-- Concatenation of arrays. -/
def arrCat : JsonArray → JsonArray → JsonArray
  | .nil, b => b
  | .cons e tl, b => .cons e (arrCat tl b)

/-- What the element loop accumulates: each element pushed at the back
in order. -/
def arrApp : JsonArray → JsonArray → JsonArray
  | acc, .nil => acc
  | acc, .cons e tl => arrApp (arrSnoc acc e) tl

/-- A member appended at the back of an object list. -/
def objSnoc : JsonObject → List Char → JsonValue → JsonObject
  | .nil, k, v => .cons k v .nil
  | .cons k2 v2 tl, k, v => .cons k2 v2 (objSnoc tl k v)

/-- Concatenation of object member lists. -/
def objCat : JsonObject → JsonObject → JsonObject
  | .nil, b => b
  | .cons k v tl, b => .cons k v (objCat tl b)

/-- The head character (if any) is not a sign: such a continuation cannot
extend an exponent part either. -/
def stopSign : List Char → Bool
  | [] => true
  | ch :: _ => !(ch = '+' || ch = '-')

/-- A placeholder current token (`advance` never reads the current
token, only the lexer part of the state). -/
def dummyTok : Token := ⟨.eof, [], 1, 1⟩

/-- Every key of the object is strictly below `k`. -/
def objAllLtKey : JsonObject → List Char → Bool
  | .nil, _ => true
  | .cons k2 _ tl, k => keyLtB k2 k && objAllLtKey tl k

/-- What the member loop accumulates: each member inserted in turn. -/
def objApp : JsonObject → JsonObject → JsonObject
  | acc, .nil => acc
  | acc, .cons k v tl => objApp (mapInsert k v acc) tl

mutual
/-- Fuel needed by `parseValue` for a given value (each constructor
counts the fuel its parsing consumes; see the round-trip lemmas). -/
def sizeV : JsonValue → Nat
  | .null => 1
  | .bool _ => 1
  | .num _ => 1
  | .str _ => 1
  | .arr es => 2 + sizeA es
  | .obj ms => 2 + sizeO ms

def sizeA : JsonArray → Nat
  | .nil => 1
  | .cons e tl => 1 + sizeV e + sizeA tl

def sizeO : JsonObject → Nat
  | .nil => 1
  | .cons _ v tl => 1 + sizeV v + sizeO tl
end

/-- Decidable equality of parse results (pointwise on `Except`). -/
instance {ε α : Type} [DecidableEq ε] [DecidableEq α] : DecidableEq (Except ε α) := fun
  | .ok a, .ok b =>
    match decEq a b with
    | isTrue h => isTrue (by rw [h])
    | isFalse h => isFalse (by intro hc; cases hc; exact h rfl)
  | .error a, .error b =>
    match decEq a b with
    | isTrue h => isTrue (by rw [h])
    | isFalse h => isFalse (by intro hc; cases hc; exact h rfl)
  | .ok _, .error _ => isFalse (by intro hc; cases hc)
  | .error _, .ok _ => isFalse (by intro hc; cases hc)

/-! ## Lemmas about the scanners -/

theorem takeDigits_append (ds r : List Char) (h1 : allDigits ds = true)
    (h2 : peekDigit r = false) : takeDigits (ds ++ r) = (ds, r) := by
  induction ds with
  | nil =>
    cases r with
    | nil => rfl
    | cons ch rr =>
      simp only [peekDigit] at h2
      simp [takeDigits, h2]
  | cons d ds ih =>
    simp only [allDigits, List.all_cons, Bool.and_eq_true] at h1
    have := ih h1.2
    simp [takeDigits, h1.1, this]

theorem strScan_content (content : List Char) (hq : ¬ '"' ∈ content)
    (hb : ¬ '\\' ∈ content) :
    ∀ rest l c, ∃ l2 c2,
      strScan (content ++ '"' :: rest) l c = (some content, rest, l2, c2) := by
  induction content with
  | nil =>
    intro rest l c
    exact ⟨l, c + 1, rfl⟩
  | cons ch cs ih =>
    intro rest l c
    simp only [List.mem_cons, not_or] at hq hb
    have hq1 : ¬ ch = '"' := fun hh => hq.1 hh.symm
    have hb1 : ¬ ch = '\\' := fun hh => hb.1 hh.symm
    obtain ⟨l2, c2, h⟩ := ih hq.2 hb.2 rest (if ch = '\n' then l + 1 else l)
      (if ch = '\n' then 2 else c + 1)
    refine ⟨l2, c2, ?_⟩
    simp [strScan, hq1, hb1, h]

theorem decodeEsc_clean (content : List Char) (hb : ¬ '\\' ∈ content) :
    decodeEsc content = content := by
  induction content with
  | nil => rfl
  | cons ch cs ih =>
    simp only [List.mem_cons, not_or] at hb
    have hb1 : ¬ ch = '\\' := fun hh => hb.1 hh.symm
    simp [decodeEsc, hb1, ih hb.2]

theorem innerLexeme_quoted (content : List Char) :
    innerLexeme ('"' :: (content ++ ['"'])) = content := by
  simp [innerLexeme]

/-! ## Lemmas about whitespace skipping and token formation -/

theorem skipWS_stop (fuel : Nat) (ch : Char) (rest : List Char) (l c : Nat)
    (h1 : ¬(ch = ' ' ∨ ch = '\r' ∨ ch = '\t')) (h2 : ¬ch = '\n') (h3 : ¬ch = '/') :
    skipWhitespaceAndComments fuel (ch :: rest) l c = (ch :: rest, l, c) := by
  cases fuel with
  | zero => rfl
  | succ f => simp [skipWhitespaceAndComments, h1, h2, h3]

theorem skipWS_spaces (k : Nat) : ∀ (fuel : Nat) (cs : List Char) (l c : Nat),
    skipWhitespaceAndComments (fuel + k) (spaces k ++ cs) l c =
      skipWhitespaceAndComments fuel cs l (c + k) := by
  induction k with
  | zero => intro fuel cs l c; rfl
  | succ k ih =>
    intro fuel cs l c
    have step : skipWhitespaceAndComments (fuel + (k + 1)) (spaces (k + 1) ++ cs) l c =
        skipWhitespaceAndComments (fuel + k) (spaces k ++ cs) l (c + 1) := by
      show skipWhitespaceAndComments ((fuel + k) + 1) (' ' :: (spaces k ++ cs)) l c = _
      simp [skipWhitespaceAndComments]
    rw [step, ih]
    congr 1
    omega

/-- The character classes a number token can start with exclude every
character the lexer treats specially before it. -/
theorem numStart_facts (ch : Char) (hch : (isDigitC ch || ch = '-') = true) :
    ¬(ch = ' ' ∨ ch = '\r' ∨ ch = '\t') ∧ ¬ch = '\n' ∧ ¬ch = '/' ∧ ¬ch = '\x7b' ∧
      ¬ch = '\x7d' ∧ ¬ch = '[' ∧ ¬ch = ']' ∧ ¬ch = ',' ∧ ¬ch = ':' ∧ ¬ch = '"' := by
  refine ⟨?_, ?_, ?_, ?_, ?_, ?_, ?_, ?_, ?_, ?_⟩
  · rintro (he | he | he) <;> rw [he] at hch <;> exact absurd hch (by decide)
  all_goals intro he; rw [he] at hch; exact absurd hch (by decide)

theorem nextToken_string (rest content r2 : List Char) (l c l2 c2 : Nat)
    (h : strScan rest l (c + 1) = (some content, r2, l2, c2)) :
    nextToken ('"' :: rest) l c =
      (⟨.string, '"' :: (content ++ ['"']), l, c⟩, r2, l2, c2) := by
  have hred : nextToken ('"' :: rest) l c =
      (match strScan rest l (c + 1) with
        | (some content2, rest2, l3, c3) =>
          (⟨.string, '"' :: (content2 ++ ['"']), l, c⟩, rest2, l3, c3)
        | (none, rest2, l3, c3) => (⟨.unknown, unterminatedLexeme, l, c⟩, rest2, l3, c3)) := rfl
  rw [hred, h]

theorem nextToken_number (ch : Char) (rest lex r2 : List Char) (l c c2 : Nat)
    (hch : (isDigitC ch || ch = '-') = true)
    (h : numberScan rest (c + 1) = (lex, r2, c2)) :
    nextToken (ch :: rest) l c = (⟨.number, ch :: lex, l, c⟩, r2, l, c2) := by
  obtain ⟨h1, h2, h3, h4, h5, h6, h7, h8, h9, h10⟩ := numStart_facts ch hch
  have hws := skipWS_stop ((ch :: rest).length + 1) ch rest l c h1 h2 h3
  unfold nextToken
  rw [hws]
  have hor : isDigitC ch = true ∨ ch = '-' := by simpa using hch
  simp only [h4, h5, h6, h7, h8, h9, h10, if_false, h]
  rw [if_pos hor]

theorem stripBOM_cons (ch : Char) (rest : List Char) (h : ¬ch = Char.ofNat 0xEF) :
    stripBOM (ch :: rest) = ch :: rest := by
  unfold stripBOM
  rw [if_neg]
  intro hcontra
  rw [show (3 : Nat) = 2 + 1 from rfl, List.take_succ_cons] at hcontra
  simp only [bomChars] at hcontra
  injection hcontra with hh _
  exact h hh

theorem advance_eq (st : PState) (tok : Token) (r2 : List Char) (l2 c2 : Nat)
    (h : nextToken st.rest st.line st.col = (tok, r2, l2, c2))
    (ht : ¬tok.type = .unknown) : advance st = .ok ⟨r2, l2, c2, tok⟩ := by
  unfold advance
  rw [h]
  simp [ht]

theorem advance_unknown (st : PState) (tok : Token) (r2 : List Char) (l2 c2 : Nat)
    (h : nextToken st.rest st.line st.col = (tok, r2, l2, c2))
    (ht : tok.type = .unknown) :
    advance st =
      .error ⟨"Unexpected character or unterminated literal", tok.line, tok.col⟩ := by
  unfold advance
  rw [h]
  simp [ht]

theorem parse_unfold (s : List Char) :
    parse s = (match advance ⟨stripBOM s, 1, 1, ⟨.eof, [], 1, 1⟩⟩ with
      | .error e => .error e
      | .ok st2 =>
        match parseValue (3 * (stripBOM s).length + 8) st2 with
        | .error e => .error e
        | .ok p => .ok p.1) := rfl

/-- A quoted string literal source text parses to the string of its raw
content, for any content free of quotes and backslashes (newlines and
other raw characters included). Shared by the string claims. -/
theorem parse_string_core (content : List Char) (hq : ¬ '"' ∈ content)
    (hb : ¬ '\\' ∈ content) :
    parse ('"' :: (content ++ ['"'])) = .ok (.str content) := by
  obtain ⟨l2, c2, hscan⟩ := strScan_content content hq hb [] 1 2
  have htok := nextToken_string (content ++ ['"']) content [] 1 1 l2 c2 hscan
  have hbom := stripBOM_cons '"' (content ++ ['"']) (by decide)
  have hadv : advance ⟨'"' :: (content ++ ['"']), 1, 1, ⟨.eof, [], 1, 1⟩⟩ =
      .ok ⟨[], l2, c2, ⟨.string, '"' :: (content ++ ['"']), 1, 1⟩⟩ := by
    exact advance_eq _ _ _ _ _ htok (fun h => nomatch h)
  rw [parse_unfold, hbom, hadv]
  have hfuel : 3 * ('"' :: (content ++ ['"'])).length + 8 =
      (3 * ('"' :: (content ++ ['"'])).length + 7) + 1 := rfl
  rw [hfuel]
  simp only [parseValue]
  unfold parseString
  rw [innerLexeme_quoted, decodeEsc_clean content hb]
  rfl

/-- The guts of `nextToken` on an opening quote, as one equation. -/
theorem nextToken_quote (cs : List Char) (l c : Nat) :
    nextToken ('"' :: cs) l c =
      (match strScan cs l (c + 1) with
        | (some content2, rest2, l3, c3) =>
          (⟨.string, '"' :: (content2 ++ ['"']), l, c⟩, rest2, l3, c3)
        | (none, rest2, l3, c3) =>
          (⟨.unknown, unterminatedLexeme, l, c⟩, rest2, l3, c3)) := rfl

/-! ## The claims -/

/-- C10: a raw, unescaped newline inside a string literal does not
terminate the token and is not an error: for every content free of
quotes and backslashes (so newlines included) the quoted literal parses
to exactly that content, and in particular `"a` LF `b"` parses to the
3-character string `a\nb`. -/
theorem C10_raw_newline_in_string :
    (∀ content : List Char, ¬ '"' ∈ content → ¬ '\\' ∈ content →
      parse ('"' :: (content ++ ['"'])) = .ok (.str content)) ∧
    parseS "\"a\nb\"" = .ok (.str ['a', '\n', 'b']) := by
  refine ⟨fun content hq hb => parse_string_core content hq hb, ?_⟩
  rfl

/-- C4: `parseString` decodes exactly the eight named escapes to their
literal characters, drops the backslash and keeps the character for any
other escape, and in particular the JSON literal `"\u0041"` parses to
the 5-character string `u0041`. -/
theorem C4_escape_decoding :
    (escChar '"' = '"' ∧ escChar '\\' = '\\' ∧ escChar '/' = '/' ∧
      escChar 'b' = '\x08' ∧ escChar 'f' = '\x0c' ∧ escChar 'n' = '\n' ∧
      escChar 'r' = '\r' ∧ escChar 't' = '\t') ∧
    (∀ (c : Char) (rest : List Char),
      decodeEsc ('\\' :: c :: rest) = escChar c :: decodeEsc rest) ∧
    (∀ c : Char, ¬c ∈ ['"', '\\', '/', 'b', 'f', 'n', 'r', 't'] → escChar c = c) ∧
    parseS "\"\\u0041\"" = .ok (.str "u0041".data) := by
  refine ⟨⟨rfl, rfl, rfl, rfl, rfl, rfl, rfl, rfl⟩, fun c rest => rfl, ?_, rfl⟩
  intro c hc
  simp only [List.mem_cons, List.mem_singleton, not_or] at hc
  obtain ⟨h1, h2, h3, h4, h5, h6, h7, h8⟩ := hc
  simp [escChar, h1, h2, h3, h4, h5, h6, h7, h8]

/-- C5: a trailing comma after the last array element or object member
is rejected: `[1,2,]` fails (the parser expects a value after the
comma) and `{"a":1,}` fails (the parser expects a string key), each with
a parse error and no value. -/
theorem C5_trailing_comma_rejected :
    parseS "[1,2,]" =
      .error ⟨"Expected a value (object, array, string, number, true, false, or null).",
        1, 6⟩ ∧
    parseS "\x7b\"a\":1,\x7d" =
      .error ⟨"Expected a string key for object member.", 1, 8⟩ :=
  ⟨rfl, rfl⟩

/-- C6: whenever the scan of a string literal reaches end of input with
no closing quote, the lexer returns an `Unknown` token whose lexeme is
the fixed text `Unterminated string.` (not the raw source text), and
`parse` of such an input consequently fails with the fail-fast error of
`Parser::advance`; in particular on the spec's example the error is at
line 1, column 7 (the opening quote of the unterminated literal). -/
theorem C6_unterminated_string :
    (∀ (cs : List Char) (l c : Nat) (r2 : List Char) (l2 c2 : Nat),
      strScan cs l (c + 1) = (none, r2, l2, c2) →
      nextToken ('"' :: cs) l c = (⟨.unknown, unterminatedLexeme, l, c⟩, r2, l2, c2)) ∧
    unterminatedLexeme = "Unterminated string.".data ∧
    parseS "\x7b\"a\": \"no close" =
      .error ⟨"Unexpected character or unterminated literal", 1, 7⟩ := by
  refine ⟨?_, rfl, rfl⟩
  intro cs l c r2 l2 c2 h
  rw [nextToken_quote, h]

/-! ## Block comments (claim C7) -/

theorem skipWS_nil (fuel l c : Nat) :
    skipWhitespaceAndComments fuel [] l c = ([], l, c) := by
  cases fuel with
  | zero => rfl
  | succ f => rfl

/-- A block comment body with no `*/` anywhere is consumed to end of
input. -/
theorem blockCmt_no_closer (junk : List Char) (h : hasStarSlash junk = false) :
    ∀ l c, ∃ l2 c2, blockCmt junk l c = ([], l2, c2) := by
  induction junk with
  | nil => exact fun l c => ⟨l, c, rfl⟩
  | cons ch rest ih =>
    intro l c
    simp only [hasStarSlash, Bool.or_eq_true, Bool.and_eq_true, not_or] at h
    have hcond : ¬(ch = '*' ∧ peekSlash rest = true) := by
      intro hc
      rw [hc.1, hc.2] at h
      simp at h
    have h2 : hasStarSlash rest = false := by
      cases hh : hasStarSlash rest with
      | false => rfl
      | true => rw [hh] at h; simp at h
    by_cases hnl : ch = '\n'
    · obtain ⟨l2, c2, hr⟩ := ih h2 (l + 1) 2
      exact ⟨l2, c2, by simp [blockCmt, hcond, hnl, hr]⟩
    · obtain ⟨l2, c2, hr⟩ := ih h2 l (c + 1)
      exact ⟨l2, c2, by simp [blockCmt, hcond, hnl, hr]⟩

/-- Skipping whitespace over an unterminated block comment consumes the
whole input (no error is raised). -/
theorem skipWS_unterminated_block (junk : List Char) (h : hasStarSlash junk = false)
    (fuel l c : Nat) : ∃ l2 c2,
    skipWhitespaceAndComments (fuel + 1) ('/' :: '*' :: junk) l c = ([], l2, c2) := by
  obtain ⟨l2, c2, hb⟩ := blockCmt_no_closer junk h l (c + 2)
  refine ⟨l2, c2, ?_⟩
  show (match blockCmt junk l (c + 2) with
    | (cs2, l3, c3) => skipWhitespaceAndComments fuel cs2 l3 c3) = _
  rw [hb]
  exact skipWS_nil fuel l2 c2

/-- C7: an unterminated block comment does not itself raise an error:
the lexer consumes it to end of input and returns the end-of-file token
(first conjunct), so a complete value followed by `/*` and any
closer-free tail parses successfully to that value (second conjunct,
with the value `1`). -/
theorem C7_unterminated_block_comment :
    (∀ (junk : List Char) (l c : Nat), hasStarSlash junk = false →
      ∃ l2 c2, nextToken ('/' :: '*' :: junk) l c = (⟨.eof, [], l2, c2⟩, [], l2, c2)) ∧
    (∀ junk : List Char, hasStarSlash junk = false →
      parse ('1' :: ' ' :: '/' :: '*' :: junk) = .ok (.num (mkD10 1 0))) := by
  constructor
  · intro junk l c h
    obtain ⟨l2, c2, hsk⟩ := skipWS_unterminated_block junk h (junk.length + 1 + 1) l c
    refine ⟨l2, c2, ?_⟩
    unfold nextToken
    simp only [List.length_cons] at hsk ⊢
    rw [hsk]
  · intro junk h
    have hbom := stripBOM_cons '1' (' ' :: '/' :: '*' :: junk) (by decide)
    have hnum : numberScan (' ' :: '/' :: '*' :: junk) 2 =
        ([], ' ' :: '/' :: '*' :: junk, 2) := rfl
    have htok := nextToken_number '1' (' ' :: '/' :: '*' :: junk) []
      (' ' :: '/' :: '*' :: junk) 1 1 2 (by decide) hnum
    have hadv : advance ⟨'1' :: ' ' :: '/' :: '*' :: junk, 1, 1, ⟨.eof, [], 1, 1⟩⟩ =
        .ok ⟨' ' :: '/' :: '*' :: junk, 1, 2, ⟨.number, ['1'], 1, 1⟩⟩ :=
      advance_eq _ _ _ _ _ htok (fun hc => nomatch hc)
    obtain ⟨l2, c2, hsk2⟩ := skipWS_unterminated_block junk h (junk.length + 1 + 1) 1 3
    have htok2 : nextToken (' ' :: '/' :: '*' :: junk) 1 2 =
        (⟨.eof, [], l2, c2⟩, [], l2, c2) := by
      unfold nextToken
      have hstep : skipWhitespaceAndComments ((' ' :: '/' :: '*' :: junk).length + 1)
          (' ' :: '/' :: '*' :: junk) 1 2 =
          skipWhitespaceAndComments ((junk.length + 1 + 1) + 1) ('/' :: '*' :: junk) 1 3 := rfl
      rw [hstep, hsk2]
    have hadv2 : advance ⟨' ' :: '/' :: '*' :: junk, 1, 2, ⟨.number, ['1'], 1, 1⟩⟩ =
        .ok ⟨[], l2, c2, ⟨.eof, [], l2, c2⟩⟩ :=
      advance_eq _ _ _ _ _ htok2 (fun hc => nomatch hc)
    rw [parse_unfold, hbom, hadv]
    have hfuel : 3 * ('1' :: ' ' :: '/' :: '*' :: junk).length + 8 =
        (3 * ('1' :: ' ' :: '/' :: '*' :: junk).length + 7) + 1 := rfl
    rw [hfuel]
    simp only [parseValue]
    unfold parseNumber
    rw [show stod ['1'] = .ok (mkD10 1 0) 1 from rfl]
    simp only [List.length_cons, List.length_nil]
    rw [if_neg (by decide)]
    rw [hadv2]

/-! ## Trailing content (claim C2) -/

/-- C2 counterexample: `"1 "` is a syntactically complete top-level
value (it parses successfully), yet appending the trailing content `@`
makes `parse` fail — the one-token lookahead pulled after the value is
an `Unknown` token and `Parser::advance` throws. So trailing content
*can* cause `parse` to fail, contrary to the claim. -/
theorem C2_cex_trailing_can_fail :
    parseS "1 " = .ok (.num (mkD10 1 0)) ∧
    parseS "1 @" = .error ⟨"Unexpected character or unterminated literal", 1, 3⟩ :=
  ⟨rfl, rfl⟩

/-- C2 (amended): `parse` reads exactly one value plus a single
lookahead token and never examines anything beyond that token: a
complete value followed by a comma (a well-formed lookahead) parses to
the prefix's value for every trailing continuation, which is never
read; e.g. `1 2 3` parses to `1`, only the lookahead `2` ever being
lexed. (Trailing content that lexes to an `Unknown` token, or that
extends the value's last token, is the exception the counterexample
exhibits.) -/
theorem C2_trailing_ignored_amended :
    (∀ t : List Char, parse ('1' :: ',' :: t) = .ok (.num (mkD10 1 0))) ∧
    (∀ t : List Char, parse ('[' :: '1' :: ']' :: ',' :: t) =
      .ok (.arr (.cons (.num (mkD10 1 0)) .nil))) ∧
    (∀ t : List Char, parse ('\x7b' :: '\x7d' :: ',' :: t) = .ok (.obj .nil)) ∧
    parseS "1 2 3" = .ok (.num (mkD10 1 0)) :=
  ⟨fun _ => rfl, fun _ => rfl, fun _ => rfl, rfl⟩

/-! ## Decimal-float and `stod` lemmas (claim C9) -/

theorem pow10_eq (k : Nat) : pow10 k = 10 ^ k := by
  unfold pow10
  push_cast
  ring

theorem pow10_zero : pow10 0 = 1 := by
  rw [pow10_eq]
  norm_num

theorem pow10_succ (n : Nat) : pow10 (n + 1) = 10 * pow10 n := by
  rw [pow10_eq, pow10_eq, pow_succ]
  ring

theorem pow10_pos (k : Nat) : 0 < pow10 k := by
  rw [pow10_eq]
  positivity

/-- The `dblMaxMan` literal is `(2^53 - 1) * 2^971`, i.e. `dblMaxD`
is `DBL_MAX`. -/
theorem dblMaxMan_eq : dblMaxMan = (2 ^ 53 - 1) * 2 ^ 971 := by
  rw [dblMaxMan]
  norm_num

/-- The `dblMinMan` literal is `5^1022`, i.e. `dblMinD` is
`5^1022 * 10^-1022 = 2^-1022 = DBL_MIN`. -/
theorem dblMinMan_eq : dblMinMan = 5 ^ 1022 := by
  rw [dblMinMan]
  norm_num

theorem dblMinMan_lt_pow10 : dblMinMan < pow10 1022 := by
  rw [pow10_eq, dblMinMan_eq]
  norm_num

theorem stripTens_spec (fuel : Nat) : ∀ (m e : Int),
    (stripTens fuel m e).man * pow10 ((stripTens fuel m e).exp - e).toNat = m ∧
    e ≤ (stripTens fuel m e).exp ∧ (0 ≤ m → 0 ≤ (stripTens fuel m e).man) := by
  induction fuel with
  | zero =>
    intro m e
    refine ⟨?_, le_refl e, fun h => h⟩
    simp [stripTens, pow10_zero]
  | succ f ih =>
    intro m e
    by_cases hd : m % 10 = 0
    · have hrec := ih (m / 10) (e + 1)
      simp only [stripTens, hd, if_true]
      refine ⟨?_, by omega, fun h => hrec.2.2 (by omega)⟩
      have he1 : e + 1 ≤ (stripTens f (m / 10) (e + 1)).exp := hrec.2.1
      have htn : ((stripTens f (m / 10) (e + 1)).exp - e).toNat =
          ((stripTens f (m / 10) (e + 1)).exp - (e + 1)).toNat + 1 := by omega
      rw [htn, pow10_succ]
      have h1 := hrec.1
      have hflip : (stripTens f (m / 10) (e + 1)).man *
          (10 * pow10 ((stripTens f (m / 10) (e + 1)).exp - (e + 1)).toNat) =
          10 * ((stripTens f (m / 10) (e + 1)).man *
            pow10 ((stripTens f (m / 10) (e + 1)).exp - (e + 1)).toNat) := by ring
      rw [hflip, h1]
      omega
    · simp only [stripTens, hd, if_false]
      refine ⟨?_, le_refl e, fun h => h⟩
      simp [pow10_zero]

theorem stripTens_neg (fuel : Nat) : ∀ (m e : Int),
    stripTens fuel (-m) e = d10Neg (stripTens fuel m e) := by
  induction fuel with
  | zero => intro m e; rfl
  | succ f ih =>
    intro m e
    by_cases hd : m % 10 = 0
    · have hd2 : (-m) % 10 = 0 := by omega
      have hq : (-m) / 10 = -(m / 10) := by omega
      simp only [stripTens, hd, hd2, if_true, hq]
      exact ih (m / 10) (e + 1)
    · have hd2 : ¬(-m) % 10 = 0 := by omega
      simp [stripTens, hd, hd2, d10Neg]

theorem mkD10_neg (m e : Int) : mkD10 (-m) e = d10Neg (mkD10 m e) := by
  by_cases h0 : m = 0
  · subst h0; simp [mkD10, d10Neg]
  · have h1 : ¬(-m) = 0 := fun hc => h0 (by omega)
    simp only [mkD10, h0, h1, if_false]
    rw [Int.natAbs_neg]
    exact stripTens_neg m.natAbs m e

theorem d10Abs_neg (d : D10) : d10Abs (d10Neg d) = d10Abs d := by
  simp [d10Abs, d10Neg, abs_neg]

/-- A nonnegative integer value within `DBL_MAX` does not trip the
model's `out_of_range` check. -/
theorem d10Lt_dblMax_of_le (n : Int) (h0 : 0 ≤ n) (hle : n ≤ dblMaxMan) :
    d10Lt dblMaxD (d10Abs (mkD10 n 0)) = false := by
  by_cases hn0 : n = 0
  · subst hn0; decide
  · have hmk : mkD10 n 0 = stripTens n.natAbs n 0 := by
      simp [mkD10, hn0]
    obtain ⟨hval, hexp, hsgn⟩ := stripTens_spec n.natAbs n 0
    set r := stripTens n.natAbs n 0 with hr
    have hman : 0 ≤ r.man := hsgn h0
    have habs : d10Abs r = ⟨r.man, r.exp⟩ := by
      simp [d10Abs, abs_of_nonneg hman]
    rw [hmk, habs]
    have hval2 : r.man * pow10 r.exp.toNat = n := by
      simpa using hval
    show (if (0 : Int) ≤ (dblMaxD.exp - r.exp) then
        decide (dblMaxD.man * pow10 (dblMaxD.exp - r.exp).toNat < r.man)
      else decide (dblMaxD.man < r.man * pow10 (-(dblMaxD.exp - r.exp)).toNat)) = false
    have hde : dblMaxD.exp = 0 := rfl
    have hdm : dblMaxD.man = dblMaxMan := rfl
    by_cases hz : (0 : Int) ≤ dblMaxD.exp - r.exp
    · have hez : r.exp = 0 := by rw [hde] at hz; omega
      rw [if_pos hz]
      apply decide_eq_false
      have hrman : r.man = n := by
        rw [hez] at hval2
        simpa [pow10_zero] using hval2
      have hpow : (dblMaxD.exp - r.exp).toNat = 0 := by rw [hde, hez]; rfl
      rw [hpow, hdm]
      simp only [pow10_zero, mul_one]
      omega
    · rw [if_neg hz]
      apply decide_eq_false
      have hpow : (-(dblMaxD.exp - r.exp)).toNat = r.exp.toNat := by rw [hde]; omega
      rw [hpow, hval2, hdm]
      omega

/-- An integer value at least one is not below `DBL_MIN`: the model's
underflow check never fires on integer lexemes. -/
theorem d10Lt_dblMin_of_ge_one (n : Int) (h1 : 1 ≤ n) :
    d10Lt (d10Abs (mkD10 n 0)) dblMinD = false := by
  have hn0 : ¬n = 0 := by omega
  have hmk : mkD10 n 0 = stripTens n.natAbs n 0 := by
    simp [mkD10, hn0]
  obtain ⟨hval, hexp, hsgn⟩ := stripTens_spec n.natAbs n 0
  set r := stripTens n.natAbs n 0 with hr
  have hman : 0 ≤ r.man := hsgn (by omega)
  have habs : d10Abs r = ⟨r.man, r.exp⟩ := by
    simp [d10Abs, abs_of_nonneg hman]
  rw [hmk, habs]
  have hval2 : r.man * pow10 r.exp.toNat = n := by
    simpa using hval
  show (if (0 : Int) ≤ ((⟨r.man, r.exp⟩ : D10).exp - dblMinD.exp) then
      decide ((⟨r.man, r.exp⟩ : D10).man *
        pow10 ((⟨r.man, r.exp⟩ : D10).exp - dblMinD.exp).toNat < dblMinD.man)
    else decide ((⟨r.man, r.exp⟩ : D10).man <
      dblMinD.man * pow10 (-((⟨r.man, r.exp⟩ : D10).exp - dblMinD.exp)).toNat)) = false
  have hde : dblMinD.exp = -1022 := rfl
  have hdm : dblMinD.man = dblMinMan := rfl
  have hz : (0 : Int) ≤ (⟨r.man, r.exp⟩ : D10).exp - dblMinD.exp := by
    show (0 : Int) ≤ r.exp - dblMinD.exp
    rw [hde]
    omega
  rw [if_pos hz]
  apply decide_eq_false
  show ¬r.man * pow10 ((r.exp - dblMinD.exp).toNat) < dblMinD.man
  have htoNat : (r.exp - dblMinD.exp).toNat = r.exp.toNat + 1022 := by
    rw [hde]
    omega
  rw [htoNat, hdm]
  intro hlt
  have hsplit : pow10 (r.exp.toNat + 1022) = pow10 r.exp.toNat * pow10 1022 := by
    rw [pow10_eq, pow10_eq, pow10_eq, pow_add]
  rw [hsplit, show r.man * (pow10 r.exp.toNat * pow10 1022) =
    (r.man * pow10 r.exp.toNat) * pow10 1022 from by ring, hval2] at hlt
  have hmono : pow10 1022 ≤ n * pow10 1022 :=
    le_mul_of_one_le_left (le_of_lt (pow10_pos 1022)) h1
  have hlt2 := dblMinMan_lt_pow10
  omega

theorem takeDigits_all (ds : List Char) (h : allDigits ds = true) :
    takeDigits ds = (ds, []) := by
  have := takeDigits_append ds [] h rfl
  rwa [List.append_nil] at this

theorem numberScan_digits (ds : List Char) (h : allDigits ds = true) (c : Nat) :
    numberScan ds c = (ds, [], c + ds.length) := by
  unfold numberScan
  rw [takeDigits_all ds h]
  simp [fracScan, expScan]

/-- `std::stod` on a minus sign followed by digits: the exact negated
value, consuming everything, provided the magnitude stays within
`DBL_MAX`. -/
theorem stod_neg_digits (ds : List Char) (hne : ¬ds = []) (h2 : allDigits ds = true)
    (h3 : (digitsToNat ds 0 : Int) ≤ 9007199254740992) :
    stod ('-' :: ds) = .ok (mkD10 (-(digitsToNat ds 0 : Int)) 0) (1 + ds.length) := by
  have hemp : ds.isEmpty = false := by
    cases ds with
    | nil => exact absurd rfl hne
    | cons a b => rfl
  have htd := takeDigits_all ds h2
  have h3' : (digitsToNat ds 0 : Int) ≤ dblMaxMan := le_trans h3 (by decide)
  have hrange := d10Lt_dblMax_of_le (digitsToNat ds 0) (by positivity) h3'
  unfold stod
  simp only [htd, hemp, List.append_nil, stodExp, List.isEmpty_nil, Bool.false_eq_true,
    false_and, and_false, if_false, neg_mul, one_mul, sub_zero, Nat.sub_zero]
  simp only [List.length_nil, Nat.cast_zero, sub_zero, Nat.add_zero]
  rw [mkD10_neg, d10Abs_neg, hrange]
  have hexpge : (0 : Int) ≤ (mkD10 (digitsToNat ds 0 : Int) 0).exp := by
    by_cases hz : (digitsToNat ds 0 : Int) = 0
    · rw [hz]
      decide
    · rw [show mkD10 (digitsToNat ds 0 : Int) 0 =
          stripTens (digitsToNat ds 0 : Int).natAbs (digitsToNat ds 0 : Int) 0 from by
        simp [mkD10, hz]]
      exact (stripTens_spec (digitsToNat ds 0 : Int).natAbs
        (digitsToNat ds 0 : Int) 0).2.1
  have hunder : ¬(¬(d10Neg (mkD10 (digitsToNat ds 0 : Int) 0)).man = 0 ∧
      (d10Neg (mkD10 (digitsToNat ds 0 : Int) 0)).exp < -307 ∧
      d10Lt (d10Abs (mkD10 (digitsToNat ds 0 : Int) 0)) dblMinD = true) := by
    intro hc
    have hexpeq : (d10Neg (mkD10 (digitsToNat ds 0 : Int) 0)).exp =
        (mkD10 (digitsToNat ds 0 : Int) 0).exp := rfl
    have h2c := hc.2.1
    rw [hexpeq] at h2c
    omega
  rw [if_neg hunder]
  simp [← mkD10_neg]

theorem advance_nil (l c : Nat) (tok : Token) :
    advance ⟨[], l, c, tok⟩ = .ok ⟨[], l, c, ⟨.eof, [], l, c⟩⟩ := rfl

/-- C9 (amended): the lexer treats `-` as starting a number token, and
`-` followed by any nonempty digit sequence whose value is at most
`2^53 = 9007199254740992` parses to the `Number` equal to the exact
negated magnitude. Up to `2^53` every integer is exactly representable,
so `std::stod` returns it with no rounding; beyond `2^53` the real
`stod` rounds to the nearest double (e.g. `-9007199254740993` becomes
`-9007199254740992.0`), so exactness stops there, and beyond `DBL_MAX`
the claim fails outright: `stod` raises `out_of_range`, see the
counterexample. -/
theorem C9_negative_number_amended (ds : List Char) (h1 : ¬ds = [])
    (h2 : allDigits ds = true) (h3 : (digitsToNat ds 0 : Int) ≤ 9007199254740992) :
    parse ('-' :: ds) = .ok (.num (d10Neg (mkD10 (digitsToNat ds 0 : Int) 0))) := by
  have hnum := numberScan_digits ds h2 2
  have htok := nextToken_number '-' ds ds [] 1 1 (2 + ds.length) (by decide) hnum
  have hbom := stripBOM_cons '-' ds (by decide)
  have hadv : advance ⟨'-' :: ds, 1, 1, ⟨.eof, [], 1, 1⟩⟩ =
      .ok ⟨[], 1, 2 + ds.length, ⟨.number, '-' :: ds, 1, 1⟩⟩ :=
    advance_eq _ _ _ _ _ htok (fun hc => nomatch hc)
  rw [parse_unfold, hbom, hadv]
  have hfuel : 3 * ('-' :: ds).length + 8 = (3 * ('-' :: ds).length + 7) + 1 := rfl
  rw [hfuel]
  simp only [parseValue]
  unfold parseNumber
  rw [stod_neg_digits ds h1 h2 h3]
  dsimp only
  have hlen : ¬(1 + ds.length ≠ ('-' :: ds).length) := by
    simp [List.length_cons]
    omega
  rw [if_neg hlen, advance_nil]
  dsimp only
  rw [mkD10_neg]

/-- C9 counterexample: `-1` followed by 309 zeros is a minus sign and a
valid digit sequence, yet `parse` does not return a Number — the
magnitude exceeds `DBL_MAX`, `std::stod` signals `out_of_range`, and the
parse fails, refuting the unrestricted claim. -/
theorem C9_cex_overflow :
    allDigits ('1' :: List.replicate 309 '0') = true ∧
    parse ('-' :: '1' :: List.replicate 309 '0') =
      .error ⟨"Number is out of range for a double.", 1, 1⟩ := by
  constructor
  · decide
  · decide

/-- C9 witness: the amended theorem applied to `-5`. -/
theorem C9_witness :
    parse ('-' :: ['5']) = .ok (.num (d10Neg (mkD10 (digitsToNat ['5'] 0 : Int) 0))) :=
  C9_negative_number_amended ['5'] (by decide) (by decide) (by decide)

/-! ## Sorted-object invariants (claim C3) -/

theorem objKeysSorted_cons (k : List Char) (v : JsonValue) (ms : JsonObject)
    (hs : objKeysSorted ms = true) (hhd : objHeadLt k ms = true) :
    objKeysSorted (.cons k v ms) = true := by
  cases ms with
  | nil => rfl
  | cons k2 v2 tl =>
    simp only [objHeadLt] at hhd
    simp [objKeysSorted, hhd, hs]

theorem objKeysSorted_tail (k : List Char) (v : JsonValue) (ms : JsonObject)
    (h : objKeysSorted (.cons k v ms) = true) : objKeysSorted ms = true := by
  cases ms with
  | nil => rfl
  | cons k2 v2 tl =>
    simp only [objKeysSorted, Bool.and_eq_true] at h
    exact h.2

theorem objKeysSorted_head (k k2 : List Char) (v v2 : JsonValue) (tl : JsonObject)
    (h : objKeysSorted (.cons k v (.cons k2 v2 tl)) = true) : keyLtB k k2 = true := by
  simp only [objKeysSorted, Bool.and_eq_true] at h
  exact h.1

/-- `mapInsert` keeps an object's keys strictly sorted. -/
theorem objKeysSorted_mapInsert (k : List Char) (v : JsonValue) :
    ∀ ms : JsonObject, objKeysSorted ms = true →
      objKeysSorted (mapInsert k v ms) = true
  | .nil, _ => rfl
  | .cons k2 v2 rest, hs => by
    have ih := objKeysSorted_mapInsert k v rest
    have hrest : objKeysSorted rest = true := objKeysSorted_tail k2 v2 rest hs
    by_cases h1 : keyLtB k k2 = true
    · simp only [mapInsert, h1, if_true]
      exact objKeysSorted_cons k v _ hs (by simp [objHeadLt, h1])
    · by_cases h2 : keyLtB k2 k = true
      · simp only [mapInsert, h1, h2, if_true, if_false]
        refine objKeysSorted_cons k2 v2 _ (ih hrest) ?_
        cases rest with
        | nil => simp [mapInsert, objHeadLt, h2]
        | cons k4 v4 tl4 =>
          have hh : keyLtB k2 k4 = true := objKeysSorted_head k2 k4 v2 v4 tl4 hs
          by_cases h3 : keyLtB k k4 = true
          · simp [mapInsert, h3, objHeadLt, h2]
          · by_cases h4 : keyLtB k4 k = true
            · simp [mapInsert, h3, h4, objHeadLt, hh]
            · simp [mapInsert, h3, h4, objHeadLt, hh]
      · simp only [mapInsert, h1, h2, if_false]
        refine objKeysSorted_cons k2 v _ hrest ?_
        cases rest with
        | nil => rfl
        | cons k4 v4 tl4 =>
          have hh : keyLtB k2 k4 = true := objKeysSorted_head k2 k4 v2 v4 tl4 hs
          simp [objHeadLt, hh]

/-- `mapInsert` keeps every member value well-sorted when the inserted
value is. -/
theorem wfSortedO_mapInsert (k : List Char) (v : JsonValue) (hv : wfSortedV v = true) :
    ∀ ms : JsonObject, wfSortedO ms = true → wfSortedO (mapInsert k v ms) = true
  | .nil, _ => by simp [mapInsert, wfSortedO, hv]
  | .cons k2 v2 rest, hs => by
    have ih := wfSortedO_mapInsert k v hv rest
    simp only [wfSortedO, Bool.and_eq_true] at hs
    by_cases h1 : keyLtB k k2 = true
    · simp only [mapInsert, h1, if_true]
      simp [wfSortedO, hv, hs.1, hs.2]
    · by_cases h2 : keyLtB k2 k = true
      · simp only [mapInsert, h1, h2, if_true, if_false]
        simp [wfSortedO, hs.1, ih hs.2]
      · simp only [mapInsert, h1, h2, if_false]
        simp [wfSortedO, hv, hs.2]

theorem wfSortedA_snoc (v : JsonValue) (hv : wfSortedV v = true) :
    ∀ acc : JsonArray, wfSortedA acc = true → wfSortedA (arrSnoc acc v) = true
  | .nil, _ => by simp [arrSnoc, wfSortedA, hv]
  | .cons e tl, h => by
    have ih := wfSortedA_snoc v hv tl
    simp only [wfSortedA, Bool.and_eq_true] at h
    simp [arrSnoc, wfSortedA, h.1, ih h.2]

/-- Every value the recursive-descent parser builds keeps each of its
objects sorted by key: objects start empty and grow only through
`mapInsert`. Mutual induction over the parser's fuel. -/
theorem parser_wf : ∀ fuel : Nat,
    (∀ st v st2, parseValue fuel st = .ok (v, st2) → wfSortedV v = true) ∧
    (∀ st ms st2, parseObject fuel st = .ok (ms, st2) →
      objKeysSorted ms = true ∧ wfSortedO ms = true) ∧
    (∀ acc st ms st2, objLoop fuel acc st = .ok (ms, st2) →
      objKeysSorted acc = true → wfSortedO acc = true →
      objKeysSorted ms = true ∧ wfSortedO ms = true) ∧
    (∀ st es st2, parseArray fuel st = .ok (es, st2) → wfSortedA es = true) ∧
    (∀ acc st es st2, arrLoop fuel acc st = .ok (es, st2) →
      wfSortedA acc = true → wfSortedA es = true) := by
  intro fuel
  induction fuel with
  | zero =>
    refine ⟨?_, ?_, ?_, ?_, ?_⟩ <;> intro _ _ _ <;> first
      | (intro h; simp [parseValue, parseObject, objLoop, parseArray, arrLoop] at h)
      | (intro _ h; simp [parseValue, parseObject, objLoop, parseArray, arrLoop] at h)
  | succ f ih =>
    obtain ⟨ihV, ihO, ihOL, ihA, ihAL⟩ := ih
    have stepV : ∀ st v st2, parseValue (f + 1) st = .ok (v, st2) →
        wfSortedV v = true := by
      intro st v st2 h
      simp only [parseValue] at h
      cases htype : st.cur.type <;> simp only [htype] at h <;> try exact Except.noConfusion h
      case leftBrace =>
        cases hobj : parseObject f st <;> simp only [hobj] at h <;> try exact Except.noConfusion h
        case _ p =>
          rw [Except.ok.injEq, Prod.mk.injEq] at h
          obtain ⟨h1, _⟩ := h
          rw [← h1]
          have := ihO st p.1 p.2 (by rw [hobj])
          simp [wfSortedV, this.1, this.2]
      case leftBracket =>
        cases harr : parseArray f st <;> simp only [harr] at h <;> try exact Except.noConfusion h
        case _ p =>
          rw [Except.ok.injEq, Prod.mk.injEq] at h
          obtain ⟨h1, _⟩ := h
          rw [← h1]
          have := ihA st p.1 p.2 (by rw [harr])
          simp [wfSortedV, this]
      case string =>
        unfold parseString at h
        cases hadv : advance st <;> simp only [hadv] at h <;> try exact Except.noConfusion h
        case _ st3 =>
          rw [Except.ok.injEq, Prod.mk.injEq] at h
          obtain ⟨h1, _⟩ := h
          rw [← h1]
          rfl
      case number =>
        unfold parseNumber at h
        cases hsd : stod st.cur.lexeme <;> simp only [hsd] at h <;> try exact Except.noConfusion h
        case _ val pos =>
          by_cases hp : pos ≠ st.cur.lexeme.length
          · rw [if_pos hp] at h; simp at h
          · rw [if_neg hp] at h
            cases hadv : advance st <;> simp only [hadv] at h <;> try exact Except.noConfusion h
            case _ st3 =>
              rw [Except.ok.injEq, Prod.mk.injEq] at h
              obtain ⟨h1, _⟩ := h
              rw [← h1]
              rfl
      case kTrue =>
        cases hadv : advance st <;> simp only [hadv] at h <;> try exact Except.noConfusion h
        case _ st3 =>
          rw [Except.ok.injEq, Prod.mk.injEq] at h
          obtain ⟨h1, _⟩ := h
          rw [← h1]
          rfl
      case kFalse =>
        cases hadv : advance st <;> simp only [hadv] at h <;> try exact Except.noConfusion h
        case _ st3 =>
          rw [Except.ok.injEq, Prod.mk.injEq] at h
          obtain ⟨h1, _⟩ := h
          rw [← h1]
          rfl
      case kNull =>
        cases hadv : advance st <;> simp only [hadv] at h <;> try exact Except.noConfusion h
        case _ st3 =>
          rw [Except.ok.injEq, Prod.mk.injEq] at h
          obtain ⟨h1, _⟩ := h
          rw [← h1]
          rfl
    have stepOL : ∀ acc st ms st2, objLoop (f + 1) acc st = .ok (ms, st2) →
        objKeysSorted acc = true → wfSortedO acc = true →
        objKeysSorted ms = true ∧ wfSortedO ms = true := by
      intro acc st ms st2 h hacc1 hacc2
      simp only [objLoop] at h
      by_cases hstr : st.cur.type = .string
      · rw [if_pos hstr] at h
        cases hadv : advance st <;> simp only [hadv] at h <;> try exact Except.noConfusion h
        case _ st1 =>
        cases hcol : consume .colon "Expected ':' after object key." st1 <;>
          simp only [hcol] at h <;> try exact Except.noConfusion h
        case _ st2m =>
        cases hpv : parseValue f st2m <;> simp only [hpv] at h <;> try exact Except.noConfusion h
        case _ p =>
        have hwfv := ihV st2m p.1 p.2 (by rw [hpv])
        have hs1 := objKeysSorted_mapInsert (innerLexeme st.cur.lexeme) p.1 acc hacc1
        have hs2 := wfSortedO_mapInsert (innerLexeme st.cur.lexeme) p.1 hwfv acc hacc2
        by_cases hrb : p.2.cur.type = .rightBrace
        · rw [if_pos hrb] at h
          rw [Except.ok.injEq, Prod.mk.injEq] at h
          obtain ⟨h1, _⟩ := h
          rw [← h1]
          exact ⟨hs1, hs2⟩
        · rw [if_neg hrb] at h
          cases hcm : consume .comma "Expected ',' or '\x7d' after object member." p.2 <;>
            simp only [hcm] at h <;> try exact Except.noConfusion h
          case _ st3 =>
          exact ihOL _ st3 ms st2 h hs1 hs2
      · rw [if_neg hstr] at h
        simp at h
    have stepAL : ∀ acc st es st2, arrLoop (f + 1) acc st = .ok (es, st2) →
        wfSortedA acc = true → wfSortedA es = true := by
      intro acc st es st2 h hacc
      simp only [arrLoop] at h
      cases hpv : parseValue f st <;> simp only [hpv] at h <;> try exact Except.noConfusion h
      case _ p =>
      have hwfv := ihV st p.1 p.2 (by rw [hpv])
      have hs := wfSortedA_snoc p.1 hwfv acc hacc
      by_cases hrb : p.2.cur.type = .rightBracket
      · rw [if_pos hrb] at h
        rw [Except.ok.injEq, Prod.mk.injEq] at h
        obtain ⟨h1, _⟩ := h
        rw [← h1]
        exact hs
      · rw [if_neg hrb] at h
        cases hcm : consume .comma "Expected ',' or ']' after array element." p.2 <;>
          simp only [hcm] at h <;> try exact Except.noConfusion h
        case _ st3 =>
        exact ihAL _ st3 es st2 h hs
    have stepO : ∀ st ms st2, parseObject (f + 1) st = .ok (ms, st2) →
        objKeysSorted ms = true ∧ wfSortedO ms = true := by
      intro st ms st2 h
      simp only [parseObject] at h
      cases hcons : consume .leftBrace "Expected '\x7b' to start an object." st <;>
        simp only [hcons] at h <;> try exact Except.noConfusion h
      case _ st1 =>
      by_cases hrb : st1.cur.type = .rightBrace
      · rw [if_pos hrb] at h
        cases hc2 : consume .rightBrace "Expected '\x7d' to end an object." st1 <;>
          simp only [hc2] at h <;> try exact Except.noConfusion h
        case _ st2c =>
        rw [Except.ok.injEq, Prod.mk.injEq] at h
        obtain ⟨h1, _⟩ := h
        rw [← h1]
        exact ⟨rfl, rfl⟩
      · rw [if_neg hrb] at h
        cases hloop : objLoop f .nil st1 <;> simp only [hloop] at h <;> try exact Except.noConfusion h
        case _ p =>
        cases hc2 : consume .rightBrace "Expected '\x7d' to end an object." p.2 <;>
          simp only [hc2] at h <;> try exact Except.noConfusion h
        case _ st2c =>
        rw [Except.ok.injEq, Prod.mk.injEq] at h
        obtain ⟨h1, _⟩ := h
        rw [← h1]
        exact ihOL .nil st1 p.1 p.2 (by rw [hloop]) rfl rfl
    have stepA : ∀ st es st2, parseArray (f + 1) st = .ok (es, st2) →
        wfSortedA es = true := by
      intro st es st2 h
      simp only [parseArray] at h
      cases hcons : consume .leftBracket "Expected '[' to start an array." st <;>
        simp only [hcons] at h <;> try exact Except.noConfusion h
      case _ st1 =>
      by_cases hrb : st1.cur.type = .rightBracket
      · rw [if_pos hrb] at h
        cases hc2 : consume .rightBracket "Expected ']' to end an array." st1 <;>
          simp only [hc2] at h <;> try exact Except.noConfusion h
        case _ st2c =>
        rw [Except.ok.injEq, Prod.mk.injEq] at h
        obtain ⟨h1, _⟩ := h
        rw [← h1]
        rfl
      · rw [if_neg hrb] at h
        cases hloop : arrLoop f .nil st1 <;> simp only [hloop] at h <;> try exact Except.noConfusion h
        case _ p =>
        cases hc2 : consume .rightBracket "Expected ']' to end an array." p.2 <;>
          simp only [hc2] at h <;> try exact Except.noConfusion h
        case _ st2c =>
        rw [Except.ok.injEq, Prod.mk.injEq] at h
        obtain ⟨h1, _⟩ := h
        rw [← h1]
        exact ihAL .nil st1 p.1 p.2 (by rw [hloop]) rfl
    exact ⟨stepV, stepO, stepOL, stepA, stepAL⟩

/-- C3: every parsed value keeps object members in strictly increasing
(lexicographic, byte-wise) key order, independent of input order — the
parser builds objects only through `mapInsert`, which preserves the
sorted `std::map` invariant (second conjunct) — and parsing
`{"b":1,"a":2}` yields the object that iterates key `a` (value 2) before
key `b` (value 1). -/
theorem C3_object_key_order :
    (∀ (cs : List Char) (v : JsonValue), parse cs = .ok v → wfSortedV v = true) ∧
    (∀ (k : List Char) (v : JsonValue) (ms : JsonObject),
      objKeysSorted ms = true → objKeysSorted (mapInsert k v ms) = true) ∧
    parseS "\x7b\"b\":1,\"a\":2\x7d" =
      .ok (.obj (.cons "a".data (.num (mkD10 2 0))
        (.cons "b".data (.num (mkD10 1 0)) .nil))) := by
  refine ⟨?_, fun k v ms h => objKeysSorted_mapInsert k v ms h, rfl⟩
  intro cs v h
  rw [parse_unfold] at h
  cases hadv : advance ⟨stripBOM cs, 1, 1, ⟨.eof, [], 1, 1⟩⟩ <;> simp only [hadv] at h <;> try exact Except.noConfusion h
  case _ st =>
  cases hpv : parseValue (3 * (stripBOM cs).length + 8) st <;> simp only [hpv] at h <;> try exact Except.noConfusion h
  case _ p =>
  rw [Except.ok.injEq] at h
  rw [← h]
  exact (parser_wf _).1 st p.1 p.2 (by rw [hpv])

/-! ## Error positions (claim C8) -/

/-- C8 counterexample: for the input `/*` newline `*/}` the offending
`}` token truly starts at line 2, column 3 (computed from the source by
`trueLine`/`trueCol`), but the reported error position is line 2,
column 4 — the newline consumed inside the block comment sets the
column to 1 *before* the `advance()` that bumps it to 2, so every such
newline shifts the tracked column one past the true one. The reported
column is therefore not always "the column at which the offending token
starts in the source". -/
theorem C8_cex_column_after_comment_newline :
    parseS "/*\n*/\x7d" =
      .error ⟨"Expected a value (object, array, string, number, true, false, or null).",
        2, 4⟩ ∧
    trueLine "/*\n*/".data = 2 ∧ trueCol "/*\n*/".data = 3 ∧ ¬(4 : Nat) = 3 :=
  ⟨rfl, rfl, rfl, by decide⟩

/-- C8 (amended): every parse error carries the 1-based line and column
the lexer recorded for the start of the offending token — a `consume`
mismatch reports the current token's recorded start (first conjunct) and
`advance` reports the `Unknown` token's recorded start (second
conjunct). That recorded position is the true token-start position
except that each newline consumed inside a string literal or block
comment shifts the tracked column one past the true column (see the
counterexample). On the spec's example input `{` newline `  "a": }` the
recorded and true positions agree: the error is reported at line 2,
column 8, exactly where the offending `}` starts. -/
theorem C8_error_positions_amended :
    (∀ (st : PState) (t : TokenType) (msg : String), ¬st.cur.type = t →
      consume t msg st = .error ⟨msg, st.cur.line, st.cur.col⟩) ∧
    (∀ (st : PState) (tok : Token) (r2 : List Char) (l2 c2 : Nat),
      nextToken st.rest st.line st.col = (tok, r2, l2, c2) → tok.type = .unknown →
      advance st =
        .error ⟨"Unexpected character or unterminated literal", tok.line, tok.col⟩) ∧
    parseS "\x7b\n  \"a\": \x7d" =
      .error ⟨"Expected a value (object, array, string, number, true, false, or null).",
        2, 8⟩ ∧
    trueLine "\x7b\n  \"a\": ".data = 2 ∧ trueCol "\x7b\n  \"a\": ".data = 8 := by
  refine ⟨?_, ?_, rfl, rfl, rfl⟩
  · intro st t msg h
    unfold consume
    rw [if_neg h]
  · intro st tok r2 l2 c2 h ht
    exact advance_unknown st tok r2 l2 c2 h ht

/-! ## Round-trip machinery (claim C1): navigating the lexer -/

theorem advance_cur_irrel (r : List Char) (l c : Nat) (t1 t2 : Token) :
    advance ⟨r, l, c, t1⟩ = advance ⟨r, l, c, t2⟩ := rfl

theorem skipWS_newline (fuel : Nat) (X : List Char) (l c : Nat) :
    skipWhitespaceAndComments (fuel + 1) ('\n' :: X) l c =
      skipWhitespaceAndComments fuel X (l + 1) 1 := by
  simp [skipWhitespaceAndComments]

theorem skipWS_space (fuel : Nat) (X : List Char) (l c : Nat) :
    skipWhitespaceAndComments (fuel + 1) (' ' :: X) l c =
      skipWhitespaceAndComments fuel X l (c + 1) := by
  simp [skipWhitespaceAndComments]

theorem nextToken_newline (X : List Char) (l c : Nat) :
    nextToken ('\n' :: X) l c = nextToken X (l + 1) 1 := by
  unfold nextToken
  have h1 : ('\n' :: X).length + 1 = (X.length + 1) + 1 := by simp
  rw [h1, skipWS_newline]

theorem nextToken_spaces (k : Nat) (X : List Char) (l c : Nat) :
    nextToken (spaces k ++ X) l c = nextToken X l (c + k) := by
  unfold nextToken
  have h1 : (spaces k ++ X).length + 1 = (X.length + 1) + k := by
    simp [spaces]
    omega
  rw [h1, skipWS_spaces]

theorem nextToken_space (X : List Char) (l c : Nat) :
    nextToken (' ' :: X) l c = nextToken X l (c + 1) := by
  unfold nextToken
  have h1 : (' ' :: X).length + 1 = (X.length + 1) + 1 := by simp
  rw [h1, skipWS_space]

theorem nextToken_nlspaces (k : Nat) (X : List Char) (l c : Nat) :
    nextToken ('\n' :: (spaces k ++ X)) l c = nextToken X (l + 1) (1 + k) := by
  rw [nextToken_newline, nextToken_spaces]

theorem advance_rw (r1 r2 : List Char) (l1 c1 l2 c2 : Nat) (t : Token)
    (h : nextToken r1 l1 c1 = nextToken r2 l2 c2) :
    advance ⟨r1, l1, c1, t⟩ = advance ⟨r2, l2, c2, t⟩ := by
  unfold advance
  rw [h]

theorem advance_comma (r : List Char) (l c : Nat) (t : Token) :
    advance ⟨',' :: r, l, c, t⟩ = .ok ⟨r, l, c + 1, ⟨.comma, [','], l, c⟩⟩ := rfl

theorem advance_colon (r : List Char) (l c : Nat) (t : Token) :
    advance ⟨':' :: r, l, c, t⟩ = .ok ⟨r, l, c + 1, ⟨.colon, [':'], l, c⟩⟩ := rfl

theorem advance_lbracket (r : List Char) (l c : Nat) (t : Token) :
    advance ⟨'[' :: r, l, c, t⟩ = .ok ⟨r, l, c + 1, ⟨.leftBracket, ['['], l, c⟩⟩ := rfl

theorem advance_rbracket (r : List Char) (l c : Nat) (t : Token) :
    advance ⟨']' :: r, l, c, t⟩ = .ok ⟨r, l, c + 1, ⟨.rightBracket, [']'], l, c⟩⟩ := rfl

theorem advance_lbrace (r : List Char) (l c : Nat) (t : Token) :
    advance ⟨'\x7b' :: r, l, c, t⟩ = .ok ⟨r, l, c + 1, ⟨.leftBrace, ['\x7b'], l, c⟩⟩ := rfl

theorem advance_rbrace (r : List Char) (l c : Nat) (t : Token) :
    advance ⟨'\x7d' :: r, l, c, t⟩ = .ok ⟨r, l, c + 1, ⟨.rightBrace, ['\x7d'], l, c⟩⟩ := rfl

theorem restTok_advance (rest : List Char) (h : RestTok rest) (l c : Nat) (t : Token) :
    ∃ st1, advance ⟨rest, l, c, t⟩ = .ok st1 := by
  rcases h with h | ⟨r, h⟩ | ⟨k, b, tail, h, hb⟩
  · subst h
    exact ⟨_, advance_nil l c t⟩
  · subst h
    exact ⟨_, advance_comma r l c t⟩
  · subst h
    rcases hb with hb | hb <;> subst hb
    · have he := (advance_rw _ (']' :: tail) l c (l + 1) (1 + k) t
        (nextToken_nlspaces k (']' :: tail) l c)).trans
        (advance_rbracket tail (l + 1) (1 + k) t)
      exact ⟨_, he⟩
    · have he := (advance_rw _ ('\x7d' :: tail) l c (l + 1) (1 + k) t
        (nextToken_nlspaces k ('\x7d' :: tail) l c)).trans
        (advance_rbrace tail (l + 1) (1 + k) t)
      exact ⟨_, he⟩

theorem restTok_stopNum (rest : List Char) (h : RestTok rest) : stopNum rest = true := by
  rcases h with h | ⟨r, h⟩ | ⟨k, b, tail, h, hb⟩
  · subst h; rfl
  · subst h; rfl
  · subst h; rfl

theorem restTok_stopSign (rest : List Char) (h : RestTok rest) : stopSign rest = true := by
  rcases h with h | ⟨r, h⟩ | ⟨k, b, tail, h, hb⟩
  · subst h; rfl
  · subst h; rfl
  · subst h; rfl

theorem valueStart_ne_rbracket (tt : TokenType) (h : valueStart tt = true) :
    ¬tt = .rightBracket := by
  intro hc
  rw [hc] at h
  exact absurd h (by decide)

theorem valueStart_ne_rbrace (tt : TokenType) (h : valueStart tt = true) :
    ¬tt = .rightBrace := by
  intro hc
  rw [hc] at h
  exact absurd h (by decide)

theorem cleanStr_facts (s : List Char) (h : cleanStr s = true) :
    ¬ '"' ∈ s ∧ ¬ '\\' ∈ s := by
  have h2 : s.all cleanChar = true := h
  refine ⟨fun hm => ?_, fun hm => ?_⟩
  · exact absurd (List.all_eq_true.mp h2 _ hm) (by decide)
  · exact absurd (List.all_eq_true.mp h2 _ hm) (by decide)

/-! ## Round-trip machinery: loop accumulators -/

theorem keyLtB_asymm : ∀ a b : List Char, keyLtB a b = true → keyLtB b a = false
  | [], [], h => by simp [keyLtB] at h
  | [], _ :: _, _ => rfl
  | _ :: _, [], h => by simp [keyLtB] at h
  | a :: as, b :: bs, h => by
    have ih := keyLtB_asymm as bs
    simp only [keyLtB] at h ⊢
    by_cases h1 : a.toNat < b.toNat
    · have h2 : ¬b.toNat < a.toNat := by omega
      simp [h1, h2]
    · simp only [h1, if_false] at h
      by_cases h2 : b.toNat < a.toNat
      · simp [h2] at h
      · simp only [h2, if_false] at h ⊢
        simp only [h1, if_false]
        exact ih h

theorem keyLtB_trans : ∀ a b c : List Char,
    keyLtB a b = true → keyLtB b c = true → keyLtB a c = true
  | [], b, c, _, h2 => by
    cases c with
    | nil =>
      exfalso
      cases b with
      | nil => simp [keyLtB] at h2
      | cons y bs => simp [keyLtB] at h2
    | cons z cs => rfl
  | x :: as, b, c, h1, h2 => by
    cases b with
    | nil => simp [keyLtB] at h1
    | cons y bs =>
      cases c with
      | nil => simp [keyLtB] at h2
      | cons z cs =>
        have ih := keyLtB_trans as bs cs
        simp only [keyLtB] at h1 h2 ⊢
        by_cases hxy : x.toNat < y.toNat
        · by_cases hyz : y.toNat < z.toNat
          · have hxz : x.toNat < z.toNat := by omega
            simp [hxz]
          · simp only [hyz, if_false] at h2
            by_cases hzy : z.toNat < y.toNat
            · simp [hzy] at h2
            · have hxz : x.toNat < z.toNat := by omega
              simp [hxz]
        · simp only [hxy, if_false] at h1
          by_cases hyx : y.toNat < x.toNat
          · simp [hyx] at h1
          · simp only [hyx, if_false] at h1
            by_cases hyz : y.toNat < z.toNat
            · have hxz : x.toNat < z.toNat := by omega
              simp [hxz]
            · simp only [hyz, if_false] at h2
              by_cases hzy : z.toNat < y.toNat
              · simp [hzy] at h2
              · simp only [hzy, if_false] at h2
                have hxz : ¬x.toNat < z.toNat := by omega
                have hzx : ¬z.toNat < x.toNat := by omega
                simp only [hxz, hzx, if_false]
                exact ih h1 h2

/-- Inserting a key above every key of the map appends at the back: this
is how the parser's member loop, fed the serialiser's sorted member
order, rebuilds the object in place. -/
theorem mapInsert_allLt (k : List Char) (v : JsonValue) :
    ∀ acc : JsonObject, objAllLtKey acc k = true →
      mapInsert k v acc = objSnoc acc k v
  | .nil, _ => rfl
  | .cons k2 v2 tl, h => by
    have ih := mapInsert_allLt k v tl
    simp only [objAllLtKey, Bool.and_eq_true] at h
    have h1 : keyLtB k2 k = true := h.1
    have h2 : keyLtB k k2 = false := keyLtB_asymm k2 k h1
    simp only [mapInsert, h2, h1, Bool.false_eq_true, if_false, if_true, objSnoc]
    rw [ih h.2]

theorem objAllLtKey_snoc (k k2 : List Char) (v : JsonValue) :
    ∀ acc : JsonObject, objAllLtKey acc k2 = true → keyLtB k k2 = true →
      objAllLtKey (objSnoc acc k v) k2 = true
  | .nil, _, h2 => by simp [objSnoc, objAllLtKey, h2]
  | .cons k3 v3 tl, h1, h2 => by
    have ih := objAllLtKey_snoc k k2 v tl
    simp only [objAllLtKey, Bool.and_eq_true] at h1
    simp [objSnoc, objAllLtKey, h1.1, ih h1.2 h2]

theorem objAllLtKey_trans (k k2 : List Char) :
    ∀ acc : JsonObject, objAllLtKey acc k = true → keyLtB k k2 = true →
      objAllLtKey acc k2 = true
  | .nil, _, _ => rfl
  | .cons k3 v3 tl, h1, h2 => by
    have ih := objAllLtKey_trans k k2 tl
    simp only [objAllLtKey, Bool.and_eq_true] at h1 ⊢
    exact ⟨keyLtB_trans k3 k k2 h1.1 h2, ih h1.2 h2⟩

theorem objCat_nil_right : ∀ a : JsonObject, objCat a .nil = a
  | .nil => rfl
  | .cons k v tl => by
    have ih := objCat_nil_right tl
    simp [objCat, ih]

theorem arrCat_nil_right : ∀ a : JsonArray, arrCat a .nil = a
  | .nil => rfl
  | .cons e tl => by
    have ih := arrCat_nil_right tl
    simp [arrCat, ih]

theorem objCat_snoc (k : List Char) (v : JsonValue) :
    ∀ a b : JsonObject, objCat (objSnoc a k v) b = objCat a (.cons k v b)
  | .nil, b => rfl
  | .cons k2 v2 tl, b => by
    have ih := objCat_snoc k v tl b
    simp [objSnoc, objCat, ih]

/-- Folding `mapInsert` over an already-sorted member list whose keys all
lie above the accumulator's reproduces the list at the back. -/
theorem objApp_sorted : ∀ (ms acc : JsonObject), objKeysSorted ms = true →
    (∀ k v tl, ms = .cons k v tl → objAllLtKey acc k = true) →
    objApp acc ms = objCat acc ms
  | .nil, acc, _, _ => (objCat_nil_right acc).symm
  | .cons k v tl, acc, hs, hb => by
    have hacck : objAllLtKey acc k = true := hb k v tl rfl
    have hb2 : ∀ k2 v2 tl2, tl = .cons k2 v2 tl2 →
        objAllLtKey (objSnoc acc k v) k2 = true := by
      intro k2 v2 tl2 htl
      have hk : keyLtB k k2 = true := by
        subst htl
        exact objKeysSorted_head k k2 v v2 tl2 hs
      exact objAllLtKey_snoc k k2 v acc (objAllLtKey_trans k k2 acc hacck hk) hk
    have ih := objApp_sorted tl (objSnoc acc k v) (objKeysSorted_tail k v tl hs) hb2
    show objApp (mapInsert k v acc) tl = objCat acc (.cons k v tl)
    rw [mapInsert_allLt k v acc hacck, ih, objCat_snoc]

/-- What the member loop accumulates from an empty start is exactly the
sorted member list it was fed. -/
theorem objApp_nil (ms : JsonObject) (hs : objKeysSorted ms = true) :
    objApp .nil ms = ms := by
  rw [objApp_sorted ms .nil hs (fun _ _ _ _ => rfl)]
  rfl

theorem arrCat_snoc (e : JsonValue) : ∀ a b : JsonArray,
    arrCat (arrSnoc a e) b = arrCat a (.cons e b)
  | .nil, b => rfl
  | .cons x tl, b => by
    have ih := arrCat_snoc e tl b
    simp [arrSnoc, arrCat, ih]

theorem arrApp_cat : ∀ (es acc : JsonArray), arrApp acc es = arrCat acc es
  | .nil, acc => (arrCat_nil_right acc).symm
  | .cons e tl, acc => by
    have ih := arrApp_cat tl (arrSnoc acc e)
    show arrApp (arrSnoc acc e) tl = arrCat acc (.cons e tl)
    rw [ih, arrCat_snoc]

/-- What the element loop accumulates from an empty start is exactly the
element list it was fed. -/
theorem arrApp_nil (es : JsonArray) : arrApp .nil es = es := by
  rw [arrApp_cat]
  rfl

/-! ## Round-trip machinery: number lexemes survive a continuation -/

theorem stopNum_facts (ch : Char) (r : List Char) (h : stopNum (ch :: r) = true) :
    isDigitC ch = false ∧ ¬ch = '.' ∧ ¬ch = 'e' ∧ ¬ch = 'E' := by
  simp only [stopNum, Bool.not_eq_eq_eq_not, Bool.not_true, Bool.or_eq_false_iff,
    decide_eq_false_iff_not] at h
  exact ⟨h.1.1.1, h.1.1.2, h.1.2, h.2⟩

theorem stopNum_peekDigit (rest : List Char) (h : stopNum rest = true) :
    peekDigit rest = false := by
  cases rest with
  | nil => rfl
  | cons ch r => exact (stopNum_facts ch r h).1

theorem peekDigit_append (t rest : List Char) (h : peekDigit t = true) :
    peekDigit (t ++ rest) = true := by
  cases t with
  | nil => exact absurd h (by simp [peekDigit])
  | cons x r => exact h

theorem peekDigit_append_false (t rest : List Char) (h1 : peekDigit t = false)
    (h2 : peekDigit rest = false) : peekDigit (t ++ rest) = false := by
  cases t with
  | nil => exact h2
  | cons x r => exact h1

theorem takeDigits_split : ∀ s : List Char, (takeDigits s).1 ++ (takeDigits s).2 = s
  | [] => rfl
  | ch :: rest => by
    have ih := takeDigits_split rest
    by_cases h : isDigitC ch = true
    · simp [takeDigits, h, ih]
    · simp [takeDigits, h]

theorem takeDigits_extend (rest : List Char) :
    ∀ s : List Char, ((takeDigits s).2 = [] → peekDigit rest = false) →
      takeDigits (s ++ rest) = ((takeDigits s).1, (takeDigits s).2 ++ rest)
  | [], h => by
    have hp : peekDigit rest = false := h rfl
    cases rest with
    | nil => rfl
    | cons ch r =>
      simp only [peekDigit] at hp
      simp [takeDigits, hp]
  | ch :: s, h => by
    by_cases hd : isDigitC ch = true
    · have h2 : (takeDigits s).2 = [] → peekDigit rest = false := by
        intro h3
        apply h
        simp [takeDigits, hd, h3]
      have ih := takeDigits_extend rest s h2
      simp [takeDigits, hd, ih]
    · simp [takeDigits, hd]

theorem fracScan_split (t : List Char) (c : Nat) :
    (fracScan t c).1 ++ (fracScan t c).2.1 = t := by
  cases t with
  | nil => rfl
  | cons ch t' =>
    by_cases hcond : ch = '.' ∧ peekDigit t' = true
    · simp only [fracScan]
      rw [if_pos hcond]
      dsimp only
      rw [List.cons_append, takeDigits_split, hcond.1]
    · simp only [fracScan]
      rw [if_neg hcond]
      rfl

theorem expScan_split (t : List Char) (c : Nat) :
    (expScan t c).1 ++ (expScan t c).2.1 = t := by
  cases t with
  | nil => rfl
  | cons ch t' =>
    by_cases he : ch = 'e' ∨ ch = 'E'
    · cases t' with
      | nil =>
        simp only [expScan]
        rw [if_pos he]
        rfl
      | cons s rr =>
        by_cases hs : s = '+' ∨ s = '-'
        · simp only [expScan]
          rw [if_pos he, if_pos hs]
          dsimp only
          simp [takeDigits_split]
        · simp only [expScan]
          rw [if_pos he, if_neg hs]
          dsimp only
          simp [takeDigits_split]
    · simp only [expScan]
      rw [if_neg he]
      rfl

theorem numberScan_split (s : List Char) (c : Nat) :
    (numberScan s c).1 ++ (numberScan s c).2.1 = s := by
  unfold numberScan
  dsimp only
  rw [List.append_assoc, List.append_assoc, expScan_split, fracScan_split,
    takeDigits_split]

theorem fracScan_col (t : List Char) (c c2 : Nat) :
    (fracScan t c).1 = (fracScan t c2).1 ∧ (fracScan t c).2.1 = (fracScan t c2).2.1 := by
  cases t with
  | nil => exact ⟨rfl, rfl⟩
  | cons ch t' =>
    by_cases hcond : ch = '.' ∧ peekDigit t' = true
    · simp only [fracScan]
      rw [if_pos hcond, if_pos hcond]
      exact ⟨rfl, rfl⟩
    · simp only [fracScan]
      rw [if_neg hcond, if_neg hcond]
      exact ⟨rfl, rfl⟩

theorem expScan_col (t : List Char) (c c2 : Nat) :
    (expScan t c).1 = (expScan t c2).1 ∧ (expScan t c).2.1 = (expScan t c2).2.1 := by
  cases t with
  | nil => exact ⟨rfl, rfl⟩
  | cons ch t' =>
    by_cases he : ch = 'e' ∨ ch = 'E'
    · cases t' with
      | nil =>
        simp only [expScan]
        rw [if_pos he, if_pos he]
        exact ⟨rfl, rfl⟩
      | cons s rr =>
        by_cases hs : s = '+' ∨ s = '-'
        · simp only [expScan]
          rw [if_pos he, if_pos he, if_pos hs, if_pos hs]
          exact ⟨rfl, rfl⟩
        · simp only [expScan]
          rw [if_pos he, if_pos he, if_neg hs, if_neg hs]
          exact ⟨rfl, rfl⟩
    · simp only [expScan]
      rw [if_neg he, if_neg he]
      exact ⟨rfl, rfl⟩

theorem numberScan_col (s : List Char) (c c2 : Nat) :
    (numberScan s c).1 = (numberScan s c2).1 ∧
    (numberScan s c).2.1 = (numberScan s c2).2.1 := by
  obtain ⟨hf1, hf2⟩ := fracScan_col (takeDigits s).2 (c + (takeDigits s).1.length)
    (c2 + (takeDigits s).1.length)
  obtain ⟨he1, he2⟩ := expScan_col
    ((fracScan (takeDigits s).2 (c + (takeDigits s).1.length)).2.1)
    ((fracScan (takeDigits s).2 (c + (takeDigits s).1.length)).2.2)
    ((fracScan (takeDigits s).2 (c2 + (takeDigits s).1.length)).2.2)
  unfold numberScan
  dsimp only
  rw [hf1, hf2] at *
  exact ⟨by rw [he1], by rw [he2]⟩

theorem fracScan_extend (rest : List Char) (hstop : stopNum rest = true)
    (t : List Char) (c : Nat) :
    fracScan (t ++ rest) c =
      ((fracScan t c).1, (fracScan t c).2.1 ++ rest, (fracScan t c).2.2) := by
  cases t with
  | nil =>
    cases hr : rest with
    | nil => rfl
    | cons ch r =>
      obtain ⟨f1, f2, f3, f4⟩ := stopNum_facts ch r (hr ▸ hstop)
      have hcond : ¬(ch = '.' ∧ peekDigit r = true) := fun hc => f2 hc.1
      simp only [List.nil_append, fracScan]
      rw [if_neg hcond]
  | cons ch t' =>
    by_cases hcond : ch = '.' ∧ peekDigit t' = true
    · have hpd := peekDigit_append t' rest hcond.2
      have hcond2 : ch = '.' ∧ peekDigit (t' ++ rest) = true := ⟨hcond.1, hpd⟩
      have htd := takeDigits_extend rest t' (fun _ => stopNum_peekDigit rest hstop)
      simp only [List.cons_append, fracScan]
      rw [if_pos hcond2, if_pos hcond, htd]
    · have hcond2 : ¬(ch = '.' ∧ peekDigit (t' ++ rest) = true) := by
        intro hc
        apply hcond
        refine ⟨hc.1, ?_⟩
        cases hp : peekDigit t' with
        | true => rfl
        | false =>
          exfalso
          have hfa := peekDigit_append_false t' rest hp (stopNum_peekDigit rest hstop)
          rw [hfa] at hc
          exact Bool.noConfusion hc.2
      simp only [List.cons_append, fracScan]
      rw [if_neg hcond2, if_neg hcond]
      rfl

theorem expScan_extend (rest : List Char) (hstop : stopNum rest = true)
    (hsgn : stopSign rest = true) (t : List Char) (c : Nat) :
    expScan (t ++ rest) c =
      ((expScan t c).1, (expScan t c).2.1 ++ rest, (expScan t c).2.2) := by
  cases t with
  | nil =>
    cases hr : rest with
    | nil => rfl
    | cons ch r =>
      obtain ⟨f1, f2, f3, f4⟩ := stopNum_facts ch r (hr ▸ hstop)
      have he : ¬(ch = 'e' ∨ ch = 'E') := fun hc => hc.elim f3 f4
      simp only [List.nil_append, expScan]
      rw [if_neg he]
  | cons ch t' =>
    by_cases he : ch = 'e' ∨ ch = 'E'
    · cases t' with
      | nil =>
        cases hr : rest with
        | nil => simp only [List.cons_append, List.nil_append, List.append_nil, expScan]
        | cons s r =>
          obtain ⟨f1, f2, f3, f4⟩ := stopNum_facts s r (hr ▸ hstop)
          have hs : ¬(s = '+' ∨ s = '-') := by
            intro hc
            rw [hr] at hsgn
            rcases hc with hc | hc <;> rw [hc] at hsgn <;> simp [stopSign] at hsgn
          have htd : takeDigits (s :: r) = ([], s :: r) := by
            simp [takeDigits, f1]
          simp only [List.cons_append, List.nil_append, expScan]
          rw [if_pos he, if_pos he, if_neg hs, htd]
          rfl
      | cons s rr =>
        by_cases hs : s = '+' ∨ s = '-'
        · have htd := takeDigits_extend rest rr (fun _ => stopNum_peekDigit rest hstop)
          simp only [List.cons_append, expScan]
          rw [if_pos he, if_pos he, if_pos hs, if_pos hs, htd]
        · have htd := takeDigits_extend rest (s :: rr)
            (fun _ => stopNum_peekDigit rest hstop)
          simp only [List.cons_append, expScan]
          rw [if_pos he, if_pos he, if_neg hs, if_neg hs]
          rw [show s :: (rr ++ rest) = (s :: rr) ++ rest from rfl, htd]
    · simp only [List.cons_append, expScan]
      rw [if_neg he, if_neg he]
      rfl

theorem numberScan_extend (rest : List Char) (hstop : stopNum rest = true)
    (hsgn : stopSign rest = true) (s : List Char) (c : Nat) :
    numberScan (s ++ rest) c =
      ((numberScan s c).1, (numberScan s c).2.1 ++ rest, (numberScan s c).2.2) := by
  unfold numberScan
  dsimp only
  rw [takeDigits_extend rest s (fun _ => stopNum_peekDigit rest hstop)]
  dsimp only
  rw [fracScan_extend rest hstop]
  dsimp only
  rw [expScan_extend rest hstop hsgn]

theorem isNumLexB_ne_nil (s : List Char) (h : isNumLexB s = true) : ¬s = [] := by
  cases s with
  | nil => simp [isNumLexB] at h
  | cons a b => simp

/-- A full number lexeme followed by a continuation that cannot extend
it lexes to exactly the number token of that lexeme, leaving the
continuation untouched. -/
theorem numLex_token (ch : Char) (s rest : List Char) (l c : Nat)
    (hlex : isNumLexB (ch :: s) = true) (hstop : stopNum rest = true)
    (hsgn : stopSign rest = true) :
    ∃ c2, nextToken ((ch :: s) ++ rest) l c =
      (⟨.number, ch :: s, l, c⟩, rest, l, c2) := by
  simp only [isNumLexB, Bool.and_eq_true] at hlex
  have hch := hlex.1
  have hemp : (numberScan s 0).2.1 = [] := by
    have h2 := hlex.2
    rwa [List.isEmpty_iff] at h2
  have hempc : (numberScan s (c + 1)).2.1 = [] := by
    rw [(numberScan_col s (c + 1) 0).2, hemp]
  have hs1 : (numberScan s (c + 1)).1 = s := by
    have h3 := numberScan_split s (c + 1)
    rwa [hempc, List.append_nil] at h3
  have hext := numberScan_extend rest hstop hsgn s (c + 1)
  rw [hempc, hs1, List.nil_append] at hext
  exact ⟨(numberScan s (c + 1)).2.2,
    by rw [List.cons_append]; exact nextToken_number ch (s ++ rest) s rest l c _ hch hext⟩

/-! ## Round-trip machinery: keyword tokens and the fuel bound -/

theorem advance_null (rest : List Char) (h : RestTok rest) (l c : Nat) (t : Token) :
    advance ⟨"null".data ++ rest, l, c, t⟩ =
      .ok ⟨rest, l, c + 4, ⟨.kNull, "null".data, l, c⟩⟩ := by
  rcases h with h | ⟨r, h⟩ | ⟨k, b, tail, h, hb⟩
  · subst h; rfl
  · subst h; rfl
  · subst h; rfl

theorem advance_true (rest : List Char) (h : RestTok rest) (l c : Nat) (t : Token) :
    advance ⟨"true".data ++ rest, l, c, t⟩ =
      .ok ⟨rest, l, c + 4, ⟨.kTrue, "true".data, l, c⟩⟩ := by
  rcases h with h | ⟨r, h⟩ | ⟨k, b, tail, h, hb⟩
  · subst h; rfl
  · subst h; rfl
  · subst h; rfl

theorem advance_false (rest : List Char) (h : RestTok rest) (l c : Nat) (t : Token) :
    advance ⟨"false".data ++ rest, l, c, t⟩ =
      .ok ⟨rest, l, c + 5, ⟨.kFalse, "false".data, l, c⟩⟩ := by
  rcases h with h | ⟨r, h⟩ | ⟨k, b, tail, h, hb⟩
  · subst h; rfl
  · subst h; rfl
  · subst h; rfl

mutual
/-- Enough input backs enough fuel: the fuel `sizeV` a value's parse
consumes is at most three characters' worth of its serialisation. -/
theorem serialise_len : ∀ (v : JsonValue) (ind : Nat), numsOkV v = true →
    sizeV v ≤ 3 * (serialise v ind).length
  | .null, ind, _ => by simp [sizeV, serialise]
  | .bool b, ind, _ => by cases b <;> simp [sizeV, serialise]
  | .num d, ind, h => by
    have hok : numberOkB d = true := h
    simp only [numberOkB, Bool.and_eq_true] at hok
    have hne := isNumLexB_ne_nil (renderNumber d) hok.1.1
    have hlen : 1 ≤ (renderNumber d).length := by
      cases hr : renderNumber d with
      | nil => exact absurd hr hne
      | cons a b => simp
    simp only [sizeV, serialise]
    omega
  | .str s, ind, _ => by
    simp only [sizeV, serialise, List.length_cons, List.length_append]
    omega
  | .arr es, ind, h => by
    have ha := serialise_lenA es ind h
    simp only [sizeA] at ha
    simp only [sizeV, sizeA, serialise, List.length_cons, List.length_append, spaces,
      List.length_replicate]
    omega
  | .obj ms, ind, h => by
    have ho := serialise_lenO ms ind h
    simp only [sizeO] at ho
    simp only [sizeV, sizeO, serialise, List.length_cons, List.length_append, spaces,
      List.length_replicate]
    omega

theorem serialise_lenA : ∀ (es : JsonArray) (ind : Nat), numsOkA es = true →
    sizeA es ≤ 3 * (serArrItems es ind).length + 1
  | .nil, _, _ => by simp [sizeA, serArrItems]
  | .cons e .nil, ind, h => by
    have hh : (numsOkV e && numsOkA .nil) = true := h
    simp only [Bool.and_eq_true] at hh
    have hv := serialise_len e (ind + 2) hh.1
    simp only [sizeA, serArrItems, List.length_append, List.length_cons, spaces,
      List.length_replicate, List.length_nil]
    omega
  | .cons e (.cons f2 tl), ind, h => by
    have hh : (numsOkV e && numsOkA (.cons f2 tl)) = true := h
    simp only [Bool.and_eq_true] at hh
    have hv := serialise_len e (ind + 2) hh.1
    have ht := serialise_lenA (.cons f2 tl) ind hh.2
    simp only [sizeA] at ht ⊢
    simp only [serArrItems, List.length_append, List.length_cons, spaces,
      List.length_replicate, List.length_nil]
    omega

theorem serialise_lenO : ∀ (ms : JsonObject) (ind : Nat), numsOkO ms = true →
    sizeO ms ≤ 3 * (serObjItems ms ind).length + 1
  | .nil, _, _ => by simp [sizeO, serObjItems]
  | .cons k v .nil, ind, h => by
    have hh : (numsOkV v && numsOkO .nil) = true := h
    simp only [Bool.and_eq_true] at hh
    have hv := serialise_len v (ind + 2) hh.1
    simp only [sizeO, serObjItems, List.length_append, List.length_cons, spaces,
      List.length_replicate, List.length_nil]
    omega
  | .cons k v (.cons k2 v2 tl), ind, h => by
    have hh : (numsOkV v && numsOkO (.cons k2 v2 tl)) = true := h
    simp only [Bool.and_eq_true] at hh
    have hv := serialise_len v (ind + 2) hh.1
    have ht := serialise_lenO (.cons k2 v2 tl) ind hh.2
    simp only [sizeO] at ht ⊢
    simp only [serObjItems, List.length_append, List.length_cons, spaces,
      List.length_replicate, List.length_nil]
    omega
end

/-! ## The round-trip induction

`rtValue`: parsing the serialisation of a clean, number-stable,
sorted-object value, followed by any legal continuation, yields exactly
that value and leaves the parser looking at the continuation's first
token. `rtArrItems`/`rtObjItems` run the element/member loops over a
serialised item list. -/

mutual
theorem rtValue : ∀ (v : JsonValue) (ind : Nat) (rest : List Char),
    cleanV v = true → numsOkV v = true → wfSortedV v = true →
    RestTok rest → ∀ (l c f : Nat), sizeV v ≤ f → ∀ t : Token,
    ∃ st0 l2 c2 st1,
      advance ⟨serialise v ind ++ rest, l, c, t⟩ = .ok st0 ∧
      valueStart st0.cur.type = true ∧
      parseValue f st0 = .ok (v, st1) ∧
      advance ⟨rest, l2, c2, dummyTok⟩ = .ok st1
  | .null, ind, rest, _, _, _, hrest, l, c, f, hf, t => by
    cases f with
    | zero => simp [sizeV] at hf
    | succ f' =>
      have hadv := advance_null rest hrest l c t
      obtain ⟨st1, hadv1⟩ := restTok_advance rest hrest l (c + 4) ⟨.kNull, "null".data, l, c⟩
      refine ⟨⟨rest, l, c + 4, ⟨.kNull, "null".data, l, c⟩⟩, l, c + 4, st1, hadv, rfl, ?_, ?_⟩
      · simp only [parseValue]
        rw [hadv1]
      · rw [advance_cur_irrel rest l (c + 4) dummyTok ⟨.kNull, "null".data, l, c⟩]
        exact hadv1
  | .bool true, ind, rest, _, _, _, hrest, l, c, f, hf, t => by
    cases f with
    | zero => simp [sizeV] at hf
    | succ f' =>
      have hadv := advance_true rest hrest l c t
      obtain ⟨st1, hadv1⟩ := restTok_advance rest hrest l (c + 4) ⟨.kTrue, "true".data, l, c⟩
      refine ⟨⟨rest, l, c + 4, ⟨.kTrue, "true".data, l, c⟩⟩, l, c + 4, st1, hadv, rfl, ?_, ?_⟩
      · simp only [parseValue]
        rw [hadv1]
      · rw [advance_cur_irrel rest l (c + 4) dummyTok ⟨.kTrue, "true".data, l, c⟩]
        exact hadv1
  | .bool false, ind, rest, _, _, _, hrest, l, c, f, hf, t => by
    cases f with
    | zero => simp [sizeV] at hf
    | succ f' =>
      have hadv := advance_false rest hrest l c t
      obtain ⟨st1, hadv1⟩ := restTok_advance rest hrest l (c + 5) ⟨.kFalse, "false".data, l, c⟩
      refine ⟨⟨rest, l, c + 5, ⟨.kFalse, "false".data, l, c⟩⟩, l, c + 5, st1, hadv, rfl, ?_, ?_⟩
      · simp only [parseValue]
        rw [hadv1]
      · rw [advance_cur_irrel rest l (c + 5) dummyTok ⟨.kFalse, "false".data, l, c⟩]
        exact hadv1
  | .num d, ind, rest, _, hnums, _, hrest, l, c, f, hf, t => by
    cases f with
    | zero => simp [sizeV] at hf
    | succ f' =>
      have hok : numberOkB d = true := hnums
      simp only [numberOkB, Bool.and_eq_true] at hok
      have hstod : stod (renderNumber d) = .ok d (renderNumber d).length :=
        of_decide_eq_true hok.1.2
      cases hrn : renderNumber d with
      | nil =>
        rw [hrn] at hok
        exact absurd hok.1.1 (by decide)
      | cons ch s =>
        have hlex : isNumLexB (ch :: s) = true := by rw [← hrn]; exact hok.1.1
        obtain ⟨c2, htok⟩ := numLex_token ch s rest l c hlex
          (restTok_stopNum rest hrest) (restTok_stopSign rest hrest)
        have hadv : advance ⟨serialise (.num d) ind ++ rest, l, c, t⟩ =
            .ok ⟨rest, l, c2, ⟨.number, ch :: s, l, c⟩⟩ := by
          have hre : serialise (.num d) ind ++ rest = (ch :: s) ++ rest := by
            show renderNumber d ++ rest = _
            rw [hrn]
          rw [hre]
          exact advance_eq _ _ _ _ _ htok (fun hc => nomatch hc)
        obtain ⟨st1, hadv1⟩ := restTok_advance rest hrest l c2 ⟨.number, ch :: s, l, c⟩
        refine ⟨⟨rest, l, c2, ⟨.number, ch :: s, l, c⟩⟩, l, c2, st1, hadv, rfl, ?_, ?_⟩
        · simp only [parseValue]
          unfold parseNumber
          dsimp only
          rw [show (ch :: s : List Char) = renderNumber d from hrn.symm, hstod]
          dsimp only
          rw [if_neg (by simp)]
          rw [advance_cur_irrel rest l c2 ⟨.number, renderNumber d, l, c⟩
            ⟨.number, ch :: s, l, c⟩, hadv1]
        · rw [advance_cur_irrel rest l c2 dummyTok ⟨.number, ch :: s, l, c⟩]
          exact hadv1
  | .str s, ind, rest, hclean, _, _, hrest, l, c, f, hf, t => by
    cases f with
    | zero => simp [sizeV] at hf
    | succ f' =>
      obtain ⟨hq, hb⟩ := cleanStr_facts s hclean
      obtain ⟨l2, c2, hscan⟩ := strScan_content s hq hb rest l (c + 1)
      have htok := nextToken_string (s ++ '"' :: rest) s rest l c l2 c2 hscan
      have hadv : advance ⟨serialise (.str s) ind ++ rest, l, c, t⟩ =
          .ok ⟨rest, l2, c2, ⟨.string, '"' :: (s ++ ['"']), l, c⟩⟩ := by
        have hre : serialise (.str s) ind ++ rest = '"' :: (s ++ '"' :: rest) := by
          show ('"' :: (s ++ ['"'])) ++ rest = _
          simp [List.append_assoc]
        rw [hre]
        exact advance_eq _ _ _ _ _ htok (fun hc => nomatch hc)
      obtain ⟨st1, hadv1⟩ := restTok_advance rest hrest l2 c2
        ⟨.string, '"' :: (s ++ ['"']), l, c⟩
      refine ⟨⟨rest, l2, c2, ⟨.string, '"' :: (s ++ ['"']), l, c⟩⟩, l2, c2, st1, hadv,
        rfl, ?_, ?_⟩
      · simp only [parseValue]
        unfold parseString
        dsimp only
        rw [innerLexeme_quoted, decodeEsc_clean s hb, hadv1]
      · rw [advance_cur_irrel rest l2 c2 dummyTok ⟨.string, '"' :: (s ++ ['"']), l, c⟩]
        exact hadv1
  | .arr es, ind, rest, hclean, hnums, hwf, hrest, l, c, f, hf, t => by
    simp only [sizeV] at hf
    cases f with
    | zero => omega
    | succ f' =>
    cases f' with
    | zero => omega
    | succ f'' =>
    have hXeq : serialise (.arr es) ind ++ rest =
        '[' :: '\n' :: (serArrItems es ind ++ (spaces ind ++ ']' :: rest)) := by
      show ('[' :: '\n' :: (serArrItems es ind ++ spaces ind ++ [']'])) ++ rest = _
      simp [List.append_assoc]
    cases es with
    | nil =>
      have hadvL : advance ⟨serialise (.arr .nil) ind ++ rest, l, c, t⟩ =
          .ok ⟨'\n' :: (spaces ind ++ ']' :: rest), l, c + 1,
            ⟨.leftBracket, ['['], l, c⟩⟩ := by
        rw [hXeq]
        exact advance_lbracket _ l c t
      have hadv2 : advance ⟨'\n' :: (spaces ind ++ ']' :: rest), l, c + 1,
            (⟨.leftBracket, ['['], l, c⟩ : Token)⟩ =
          .ok ⟨rest, l + 1, 1 + ind + 1, ⟨.rightBracket, [']'], l + 1, 1 + ind⟩⟩ :=
        (advance_rw _ (']' :: rest) l (c + 1) (l + 1) (1 + ind) _
          (nextToken_nlspaces ind (']' :: rest) l (c + 1))).trans
          (advance_rbracket rest (l + 1) (1 + ind) _)
      obtain ⟨st2, hadv3⟩ := restTok_advance rest hrest (l + 1) (1 + ind + 1)
        ⟨.rightBracket, [']'], l + 1, 1 + ind⟩
      have hcons1 : consume .leftBracket "Expected '[' to start an array."
          ⟨'\n' :: (spaces ind ++ ']' :: rest), l, c + 1, ⟨.leftBracket, ['['], l, c⟩⟩ =
          .ok ⟨rest, l + 1, 1 + ind + 1, ⟨.rightBracket, [']'], l + 1, 1 + ind⟩⟩ := by
        unfold consume
        rw [if_pos rfl]
        exact hadv2
      have hcons2 : consume .rightBracket "Expected ']' to end an array."
          ⟨rest, l + 1, 1 + ind + 1, ⟨.rightBracket, [']'], l + 1, 1 + ind⟩⟩ = .ok st2 := by
        unfold consume
        rw [if_pos rfl]
        exact hadv3
      have hrun : parseValue (f'' + 1 + 1) ⟨'\n' :: (spaces ind ++ ']' :: rest), l, c + 1,
          ⟨.leftBracket, ['['], l, c⟩⟩ = .ok (.arr .nil, st2) := by
        simp only [parseValue, parseArray]
        rw [hcons1]
        dsimp only
        rw [if_pos rfl]
        rw [hcons2]
      exact ⟨_, l + 1, 1 + ind + 1, st2, hadvL, rfl, hrun, by
        rw [advance_cur_irrel rest (l + 1) (1 + ind + 1) dummyTok
          ⟨.rightBracket, [']'], l + 1, 1 + ind⟩]
        exact hadv3⟩
    | cons e tl =>
      obtain ⟨stA, l3, c3, st1A, hadvA, hvsA, hloopA, hadvB⟩ :=
        rtArrItems (.cons e tl) (fun hc => JsonArray.noConfusion hc) ind rest hclean hnums
          hwf hrest (l + 1) 1 f'' (by omega) ⟨.leftBracket, ['['], l, c⟩ .nil
      have hadvL : advance ⟨serialise (.arr (.cons e tl)) ind ++ rest, l, c, t⟩ =
          .ok ⟨'\n' :: (serArrItems (.cons e tl) ind ++ (spaces ind ++ ']' :: rest)),
            l, c + 1, ⟨.leftBracket, ['['], l, c⟩⟩ := by
        rw [hXeq]
        exact advance_lbracket _ l c t
      have hcons1 : consume .leftBracket "Expected '[' to start an array."
          ⟨'\n' :: (serArrItems (.cons e tl) ind ++ (spaces ind ++ ']' :: rest)), l, c + 1,
            ⟨.leftBracket, ['['], l, c⟩⟩ = .ok stA := by
        unfold consume
        rw [if_pos rfl]
        exact (advance_rw _ _ l (c + 1) (l + 1) 1 _
          (nextToken_newline _ l (c + 1))).trans hadvA
      have hcalcB := advance_rbracket rest l3 c3 dummyTok
      rw [hcalcB] at hadvB
      simp only [Except.ok.injEq] at hadvB
      subst hadvB
      obtain ⟨st2, hadv3⟩ := restTok_advance rest hrest l3 (c3 + 1)
        ⟨.rightBracket, [']'], l3, c3⟩
      have hcons2 : consume .rightBracket "Expected ']' to end an array."
          ⟨rest, l3, c3 + 1, ⟨.rightBracket, [']'], l3, c3⟩⟩ = .ok st2 := by
        unfold consume
        rw [if_pos rfl]
        exact hadv3
      have hrun : parseValue (f'' + 1 + 1) ⟨'\n' :: (serArrItems (.cons e tl) ind ++
          (spaces ind ++ ']' :: rest)), l, c + 1, ⟨.leftBracket, ['['], l, c⟩⟩ =
          .ok (.arr (.cons e tl), st2) := by
        simp only [parseValue, parseArray]
        rw [hcons1]
        dsimp only
        rw [if_neg (valueStart_ne_rbracket _ hvsA)]
        rw [hloopA]
        dsimp only
        rw [hcons2]
        dsimp only
        rw [arrApp_nil]
      exact ⟨_, l3, c3 + 1, st2, hadvL, rfl, hrun, by
        rw [advance_cur_irrel rest l3 (c3 + 1) dummyTok ⟨.rightBracket, [']'], l3, c3⟩]
        exact hadv3⟩
  | .obj ms, ind, rest, hclean, hnums, hwf, hrest, l, c, f, hf, t => by
    have hws : (objKeysSorted ms && wfSortedO ms) = true := hwf
    simp only [Bool.and_eq_true] at hws
    simp only [sizeV] at hf
    cases f with
    | zero => omega
    | succ f' =>
    cases f' with
    | zero => omega
    | succ f'' =>
    have hXeq : serialise (.obj ms) ind ++ rest =
        '\x7b' :: '\n' :: (serObjItems ms ind ++ (spaces ind ++ '\x7d' :: rest)) := by
      show ('\x7b' :: '\n' :: (serObjItems ms ind ++ spaces ind ++ ['\x7d'])) ++ rest = _
      simp [List.append_assoc]
    cases ms with
    | nil =>
      have hadvL : advance ⟨serialise (.obj .nil) ind ++ rest, l, c, t⟩ =
          .ok ⟨'\n' :: (spaces ind ++ '\x7d' :: rest), l, c + 1,
            ⟨.leftBrace, ['\x7b'], l, c⟩⟩ := by
        rw [hXeq]
        exact advance_lbrace _ l c t
      have hadv2 : advance ⟨'\n' :: (spaces ind ++ '\x7d' :: rest), l, c + 1,
            (⟨.leftBrace, ['\x7b'], l, c⟩ : Token)⟩ =
          .ok ⟨rest, l + 1, 1 + ind + 1, ⟨.rightBrace, ['\x7d'], l + 1, 1 + ind⟩⟩ :=
        (advance_rw _ ('\x7d' :: rest) l (c + 1) (l + 1) (1 + ind) _
          (nextToken_nlspaces ind ('\x7d' :: rest) l (c + 1))).trans
          (advance_rbrace rest (l + 1) (1 + ind) _)
      obtain ⟨st2, hadv3⟩ := restTok_advance rest hrest (l + 1) (1 + ind + 1)
        ⟨.rightBrace, ['\x7d'], l + 1, 1 + ind⟩
      have hcons1 : consume .leftBrace "Expected '\x7b' to start an object."
          ⟨'\n' :: (spaces ind ++ '\x7d' :: rest), l, c + 1, ⟨.leftBrace, ['\x7b'], l, c⟩⟩ =
          .ok ⟨rest, l + 1, 1 + ind + 1, ⟨.rightBrace, ['\x7d'], l + 1, 1 + ind⟩⟩ := by
        unfold consume
        rw [if_pos rfl]
        exact hadv2
      have hcons2 : consume .rightBrace "Expected '\x7d' to end an object."
          ⟨rest, l + 1, 1 + ind + 1, ⟨.rightBrace, ['\x7d'], l + 1, 1 + ind⟩⟩ = .ok st2 := by
        unfold consume
        rw [if_pos rfl]
        exact hadv3
      have hrun : parseValue (f'' + 1 + 1) ⟨'\n' :: (spaces ind ++ '\x7d' :: rest), l, c + 1,
          ⟨.leftBrace, ['\x7b'], l, c⟩⟩ = .ok (.obj .nil, st2) := by
        simp only [parseValue, parseObject]
        rw [hcons1]
        dsimp only
        rw [if_pos rfl]
        rw [hcons2]
      exact ⟨_, l + 1, 1 + ind + 1, st2, hadvL, rfl, hrun, by
        rw [advance_cur_irrel rest (l + 1) (1 + ind + 1) dummyTok
          ⟨.rightBrace, ['\x7d'], l + 1, 1 + ind⟩]
        exact hadv3⟩
    | cons k v tl =>
      obtain ⟨stO, l3, c3, st1O, hadvO, hcurO, hloopO, hadvB⟩ :=
        rtObjItems (.cons k v tl) (fun hc => JsonObject.noConfusion hc) ind rest hclean
          hnums hws.2 hrest (l + 1) 1 f'' (by omega) ⟨.leftBrace, ['\x7b'], l, c⟩ .nil
      have hadvL : advance ⟨serialise (.obj (.cons k v tl)) ind ++ rest, l, c, t⟩ =
          .ok ⟨'\n' :: (serObjItems (.cons k v tl) ind ++ (spaces ind ++ '\x7d' :: rest)),
            l, c + 1, ⟨.leftBrace, ['\x7b'], l, c⟩⟩ := by
        rw [hXeq]
        exact advance_lbrace _ l c t
      have hcons1 : consume .leftBrace "Expected '\x7b' to start an object."
          ⟨'\n' :: (serObjItems (.cons k v tl) ind ++ (spaces ind ++ '\x7d' :: rest)),
            l, c + 1, ⟨.leftBrace, ['\x7b'], l, c⟩⟩ = .ok stO := by
        unfold consume
        rw [if_pos rfl]
        exact (advance_rw _ _ l (c + 1) (l + 1) 1 _
          (nextToken_newline _ l (c + 1))).trans hadvO
      have hcalcB := advance_rbrace rest l3 c3 dummyTok
      rw [hcalcB] at hadvB
      simp only [Except.ok.injEq] at hadvB
      subst hadvB
      obtain ⟨st2, hadv3⟩ := restTok_advance rest hrest l3 (c3 + 1)
        ⟨.rightBrace, ['\x7d'], l3, c3⟩
      have hcons2 : consume .rightBrace "Expected '\x7d' to end an object."
          ⟨rest, l3, c3 + 1, ⟨.rightBrace, ['\x7d'], l3, c3⟩⟩ = .ok st2 := by
        unfold consume
        rw [if_pos rfl]
        exact hadv3
      have hrun : parseValue (f'' + 1 + 1) ⟨'\n' :: (serObjItems (.cons k v tl) ind ++
          (spaces ind ++ '\x7d' :: rest)), l, c + 1, ⟨.leftBrace, ['\x7b'], l, c⟩⟩ =
          .ok (.obj (.cons k v tl), st2) := by
        simp only [parseValue, parseObject]
        rw [hcons1]
        dsimp only
        rw [if_neg (show ¬stO.cur.type = .rightBrace from fun hc => by
          rw [hcurO] at hc; exact TokenType.noConfusion hc)]
        rw [hloopO]
        dsimp only
        rw [hcons2]
        dsimp only
        rw [objApp_nil _ hws.1]
      exact ⟨_, l3, c3 + 1, st2, hadvL, rfl, hrun, by
        rw [advance_cur_irrel rest l3 (c3 + 1) dummyTok ⟨.rightBrace, ['\x7d'], l3, c3⟩]
        exact hadv3⟩

theorem rtArrItems : ∀ (es : JsonArray), ¬es = .nil → ∀ (ind : Nat) (rest : List Char),
    cleanA es = true → numsOkA es = true → wfSortedA es = true →
    RestTok rest → ∀ (l c f : Nat), sizeA es ≤ f → ∀ (t : Token) (acc : JsonArray),
    ∃ st0 l2 c2 st1,
      advance ⟨serArrItems es ind ++ (spaces ind ++ ']' :: rest), l, c, t⟩ = .ok st0 ∧
      valueStart st0.cur.type = true ∧
      arrLoop f acc st0 = .ok (arrApp acc es, st1) ∧
      advance ⟨']' :: rest, l2, c2, dummyTok⟩ = .ok st1
  | .nil, hne, _, _, _, _, _, _, _, _, _, _, _, _ => absurd rfl hne
  | .cons e tl, _, ind, rest, hclean, hnums, hwf, hrest, l, c, f, hf, t, acc => by
    have hcl : (cleanV e && cleanA tl) = true := hclean
    have hnm : (numsOkV e && numsOkA tl) = true := hnums
    have hwa : (wfSortedV e && wfSortedA tl) = true := hwf
    simp only [Bool.and_eq_true] at hcl hnm hwa
    simp only [sizeA] at hf
    cases f with
    | zero => omega
    | succ f' =>
    cases tl with
    | nil =>
      have hrest2 : RestTok ('\n' :: (spaces ind ++ ']' :: rest)) :=
        Or.inr (Or.inr ⟨ind, ']', rest, rfl, Or.inl rfl⟩)
      obtain ⟨st0, l2, c2, st1, hadv0, hvs, hpv, hadv1⟩ :=
        rtValue e (ind + 2) ('\n' :: (spaces ind ++ ']' :: rest)) hcl.1 hnm.1 hwa.1
          hrest2 l (c + (ind + 2)) f' (by omega) t
      have hin : advance ⟨serArrItems (.cons e .nil) ind ++ (spaces ind ++ ']' :: rest),
          l, c, t⟩ = .ok st0 := by
        have hle : serArrItems (.cons e .nil) ind ++ (spaces ind ++ ']' :: rest) =
            spaces (ind + 2) ++ (serialise e (ind + 2) ++
              ('\n' :: (spaces ind ++ ']' :: rest))) := by
          show (spaces (ind + 2) ++ serialise e (ind + 2) ++ ['\n'])
              ++ (spaces ind ++ ']' :: rest) = _
          simp [List.append_assoc]
        rw [hle]
        exact (advance_rw _ _ l c l (c + (ind + 2)) t
          (nextToken_spaces (ind + 2) _ l c)).trans hadv0
      have hcalc := (advance_rw ('\n' :: (spaces ind ++ ']' :: rest)) (']' :: rest)
          l2 c2 (l2 + 1) (1 + ind) dummyTok (nextToken_nlspaces ind (']' :: rest) l2 c2)).trans
          (advance_rbracket rest (l2 + 1) (1 + ind) dummyTok)
      rw [hcalc] at hadv1
      simp only [Except.ok.injEq] at hadv1
      subst hadv1
      refine ⟨st0, l2 + 1, 1 + ind, _, hin, hvs, ?_,
        advance_rbracket rest (l2 + 1) (1 + ind) dummyTok⟩
      simp only [arrLoop]
      rw [hpv]
      dsimp only
      rw [if_pos rfl]
      rfl
    | cons f2 tl2 =>
      have hrest2 : RestTok (',' :: ('\n' :: (serArrItems (.cons f2 tl2) ind ++
          (spaces ind ++ ']' :: rest)))) := Or.inr (Or.inl ⟨_, rfl⟩)
      obtain ⟨st0, l2, c2, st1, hadv0, hvs, hpv, hadv1⟩ :=
        rtValue e (ind + 2) (',' :: ('\n' :: (serArrItems (.cons f2 tl2) ind ++
          (spaces ind ++ ']' :: rest)))) hcl.1 hnm.1 hwa.1 hrest2 l (c + (ind + 2)) f'
          (by omega) t
      have hin : advance ⟨serArrItems (.cons e (.cons f2 tl2)) ind ++
          (spaces ind ++ ']' :: rest), l, c, t⟩ = .ok st0 := by
        have hle : serArrItems (.cons e (.cons f2 tl2)) ind ++ (spaces ind ++ ']' :: rest) =
            spaces (ind + 2) ++ (serialise e (ind + 2) ++ (',' :: ('\n' ::
              (serArrItems (.cons f2 tl2) ind ++ (spaces ind ++ ']' :: rest))))) := by
          show (spaces (ind + 2) ++ serialise e (ind + 2) ++ [',', '\n']
              ++ serArrItems (.cons f2 tl2) ind) ++ (spaces ind ++ ']' :: rest) = _
          simp [List.append_assoc]
        rw [hle]
        exact (advance_rw _ _ l c l (c + (ind + 2)) t
          (nextToken_spaces (ind + 2) _ l c)).trans hadv0
      have hcalc := advance_comma ('\n' :: (serArrItems (.cons f2 tl2) ind ++
        (spaces ind ++ ']' :: rest))) l2 c2 dummyTok
      rw [hcalc] at hadv1
      simp only [Except.ok.injEq] at hadv1
      subst hadv1
      obtain ⟨st0', l3, c3, st1', hadv0', hvs', hloop', hadv1'⟩ :=
        rtArrItems (.cons f2 tl2) (fun hc => JsonArray.noConfusion hc) ind rest hcl.2 hnm.2
          hwa.2 hrest (l2 + 1) 1 f' (by omega) ⟨.comma, [','], l2, c2⟩ (arrSnoc acc e)
      have hconsC : consume .comma "Expected ',' or ']' after array element."
          ⟨'\n' :: (serArrItems (.cons f2 tl2) ind ++ (spaces ind ++ ']' :: rest)),
            l2, c2 + 1, ⟨.comma, [','], l2, c2⟩⟩ = .ok st0' := by
        unfold consume
        rw [if_pos rfl]
        exact (advance_rw _ _ l2 (c2 + 1) (l2 + 1) 1 _
          (nextToken_newline _ l2 (c2 + 1))).trans hadv0'
      refine ⟨st0, l3, c3, st1', hin, hvs, ?_, hadv1'⟩
      simp only [arrLoop]
      rw [hpv]
      dsimp only
      rw [if_neg (show ¬TokenType.comma = TokenType.rightBracket from
        fun hc => TokenType.noConfusion hc)]
      rw [hconsC]
      dsimp only
      exact hloop'

theorem rtObjItems : ∀ (ms : JsonObject), ¬ms = .nil → ∀ (ind : Nat) (rest : List Char),
    cleanO ms = true → numsOkO ms = true → wfSortedO ms = true →
    RestTok rest → ∀ (l c f : Nat), sizeO ms ≤ f → ∀ (t : Token) (acc : JsonObject),
    ∃ st0 l2 c2 st1,
      advance ⟨serObjItems ms ind ++ (spaces ind ++ '\x7d' :: rest), l, c, t⟩ = .ok st0 ∧
      st0.cur.type = .string ∧
      objLoop f acc st0 = .ok (objApp acc ms, st1) ∧
      advance ⟨'\x7d' :: rest, l2, c2, dummyTok⟩ = .ok st1
  | .nil, hne, _, _, _, _, _, _, _, _, _, _, _, _ => absurd rfl hne
  | .cons k v tl, _, ind, rest, hclean, hnums, hwf, hrest, l, c, f, hf, t, acc => by
    have hcl : (cleanStr k && cleanV v && cleanO tl) = true := hclean
    have hnm : (numsOkV v && numsOkO tl) = true := hnums
    have hwo : (wfSortedV v && wfSortedO tl) = true := hwf
    simp only [Bool.and_eq_true] at hcl hnm hwo
    simp only [sizeO] at hf
    cases f with
    | zero => omega
    | succ f' =>
    obtain ⟨hq, hb⟩ := cleanStr_facts k hcl.1.1
    cases tl with
    | nil =>
      obtain ⟨lk, ck, hscan⟩ := strScan_content k hq hb
        (':' :: ' ' :: (serialise v (ind + 2) ++ ('\n' :: (spaces ind ++ '\x7d' :: rest))))
        l (c + (ind + 2) + 1)
      have htok := nextToken_string
        (k ++ '"' :: (':' :: ' ' :: (serialise v (ind + 2) ++
          ('\n' :: (spaces ind ++ '\x7d' :: rest))))) k
        (':' :: ' ' :: (serialise v (ind + 2) ++ ('\n' :: (spaces ind ++ '\x7d' :: rest))))
        l (c + (ind + 2)) lk ck hscan
      have hadvK : advance ⟨'"' :: (k ++ '"' :: (':' :: ' ' :: (serialise v (ind + 2) ++
            ('\n' :: (spaces ind ++ '\x7d' :: rest))))), l, c + (ind + 2), t⟩ =
          .ok ⟨':' :: ' ' :: (serialise v (ind + 2) ++ ('\n' :: (spaces ind ++
            '\x7d' :: rest))), lk, ck, ⟨.string, '"' :: (k ++ ['"']), l, c + (ind + 2)⟩⟩ :=
        advance_eq _ _ _ _ _ htok (fun hc => nomatch hc)
      have hin : advance ⟨serObjItems (.cons k v .nil) ind ++ (spaces ind ++ '\x7d' :: rest),
          l, c, t⟩ = .ok ⟨':' :: ' ' :: (serialise v (ind + 2) ++ ('\n' :: (spaces ind ++
            '\x7d' :: rest))), lk, ck, ⟨.string, '"' :: (k ++ ['"']), l, c + (ind + 2)⟩⟩ := by
        have hle : serObjItems (.cons k v .nil) ind ++ (spaces ind ++ '\x7d' :: rest) =
            spaces (ind + 2) ++ ('"' :: (k ++ '"' :: (':' :: ' ' ::
              (serialise v (ind + 2) ++ ('\n' :: (spaces ind ++ '\x7d' :: rest)))))) := by
          show (spaces (ind + 2) ++ '"' :: k ++ '"' :: ':' :: ' ' ::
              (serialise v (ind + 2) ++ ['\n'])) ++ (spaces ind ++ '\x7d' :: rest) = _
          simp [List.append_assoc]
        rw [hle]
        exact (advance_rw _ _ l c l (c + (ind + 2)) t
          (nextToken_spaces (ind + 2) _ l c)).trans hadvK
      have hrest2 : RestTok ('\n' :: (spaces ind ++ '\x7d' :: rest)) :=
        Or.inr (Or.inr ⟨ind, '\x7d', rest, rfl, Or.inr rfl⟩)
      obtain ⟨st0v, l2, c2, st1v, hadv0v, hvsv, hpv, hadv1v⟩ :=
        rtValue v (ind + 2) ('\n' :: (spaces ind ++ '\x7d' :: rest)) hcl.1.2 hnm.1 hwo.1
          hrest2 lk (ck + 1 + 1) f' (by omega) ⟨.colon, [':'], lk, ck⟩
      have hconsColon : consume .colon "Expected ':' after object key."
          ⟨' ' :: (serialise v (ind + 2) ++ ('\n' :: (spaces ind ++ '\x7d' :: rest))),
            lk, ck + 1, ⟨.colon, [':'], lk, ck⟩⟩ = .ok st0v := by
        unfold consume
        rw [if_pos rfl]
        exact (advance_rw _ _ lk (ck + 1) lk (ck + 1 + 1) _
          (nextToken_space _ lk (ck + 1))).trans hadv0v
      have hcalc := (advance_rw ('\n' :: (spaces ind ++ '\x7d' :: rest)) ('\x7d' :: rest)
          l2 c2 (l2 + 1) (1 + ind) dummyTok
          (nextToken_nlspaces ind ('\x7d' :: rest) l2 c2)).trans
          (advance_rbrace rest (l2 + 1) (1 + ind) dummyTok)
      rw [hcalc] at hadv1v
      simp only [Except.ok.injEq] at hadv1v
      subst hadv1v
      refine ⟨_, l2 + 1, 1 + ind, _, hin, rfl, ?_,
        advance_rbrace rest (l2 + 1) (1 + ind) dummyTok⟩
      simp only [objLoop]
      rw [if_pos trivial]
      rw [innerLexeme_quoted]
      rw [show advance ⟨':' :: ' ' :: (serialise v (ind + 2) ++ ('\n' :: (spaces ind ++
          '\x7d' :: rest))), lk, ck, ⟨.string, '"' :: (k ++ ['"']), l, c + (ind + 2)⟩⟩ =
        .ok ⟨' ' :: (serialise v (ind + 2) ++ ('\n' :: (spaces ind ++ '\x7d' :: rest))),
          lk, ck + 1, ⟨.colon, [':'], lk, ck⟩⟩ from advance_colon _ lk ck _]
      dsimp only
      rw [hconsColon]
      dsimp only
      rw [hpv]
      dsimp only
      rw [if_pos rfl]
      rfl
    | cons k2 v2 tl2 =>
      obtain ⟨lk, ck, hscan⟩ := strScan_content k hq hb
        (':' :: ' ' :: (serialise v (ind + 2) ++ (',' :: '\n' ::
          (serObjItems (.cons k2 v2 tl2) ind ++ (spaces ind ++ '\x7d' :: rest)))))
        l (c + (ind + 2) + 1)
      have htok := nextToken_string
        (k ++ '"' :: (':' :: ' ' :: (serialise v (ind + 2) ++ (',' :: '\n' ::
          (serObjItems (.cons k2 v2 tl2) ind ++ (spaces ind ++ '\x7d' :: rest)))))) k
        (':' :: ' ' :: (serialise v (ind + 2) ++ (',' :: '\n' ::
          (serObjItems (.cons k2 v2 tl2) ind ++ (spaces ind ++ '\x7d' :: rest)))))
        l (c + (ind + 2)) lk ck hscan
      have hadvK : advance ⟨'"' :: (k ++ '"' :: (':' :: ' ' :: (serialise v (ind + 2) ++
            (',' :: '\n' :: (serObjItems (.cons k2 v2 tl2) ind ++
              (spaces ind ++ '\x7d' :: rest)))))), l, c + (ind + 2), t⟩ =
          .ok ⟨':' :: ' ' :: (serialise v (ind + 2) ++ (',' :: '\n' ::
            (serObjItems (.cons k2 v2 tl2) ind ++ (spaces ind ++ '\x7d' :: rest)))),
            lk, ck, ⟨.string, '"' :: (k ++ ['"']), l, c + (ind + 2)⟩⟩ :=
        advance_eq _ _ _ _ _ htok (fun hc => nomatch hc)
      have hin : advance ⟨serObjItems (.cons k v (.cons k2 v2 tl2)) ind ++
          (spaces ind ++ '\x7d' :: rest), l, c, t⟩ =
          .ok ⟨':' :: ' ' :: (serialise v (ind + 2) ++ (',' :: '\n' ::
            (serObjItems (.cons k2 v2 tl2) ind ++ (spaces ind ++ '\x7d' :: rest)))),
            lk, ck, ⟨.string, '"' :: (k ++ ['"']), l, c + (ind + 2)⟩⟩ := by
        have hle : serObjItems (.cons k v (.cons k2 v2 tl2)) ind ++
            (spaces ind ++ '\x7d' :: rest) =
            spaces (ind + 2) ++ ('"' :: (k ++ '"' :: (':' :: ' ' ::
              (serialise v (ind + 2) ++ (',' :: '\n' :: (serObjItems (.cons k2 v2 tl2) ind ++
                (spaces ind ++ '\x7d' :: rest))))))) := by
          show (spaces (ind + 2) ++ '"' :: k ++ '"' :: ':' :: ' ' ::
              (serialise v (ind + 2) ++ [',', '\n']) ++ serObjItems (.cons k2 v2 tl2) ind)
              ++ (spaces ind ++ '\x7d' :: rest) = _
          simp [List.append_assoc]
        rw [hle]
        exact (advance_rw _ _ l c l (c + (ind + 2)) t
          (nextToken_spaces (ind + 2) _ l c)).trans hadvK
      have hrest2 : RestTok (',' :: ('\n' :: (serObjItems (.cons k2 v2 tl2) ind ++
          (spaces ind ++ '\x7d' :: rest)))) := Or.inr (Or.inl ⟨_, rfl⟩)
      obtain ⟨st0v, l2, c2, st1v, hadv0v, hvsv, hpv, hadv1v⟩ :=
        rtValue v (ind + 2) (',' :: ('\n' :: (serObjItems (.cons k2 v2 tl2) ind ++
          (spaces ind ++ '\x7d' :: rest)))) hcl.1.2 hnm.1 hwo.1 hrest2 lk (ck + 1 + 1) f'
          (by omega) ⟨.colon, [':'], lk, ck⟩
      have hconsColon : consume .colon "Expected ':' after object key."
          ⟨' ' :: (serialise v (ind + 2) ++ (',' :: '\n' ::
            (serObjItems (.cons k2 v2 tl2) ind ++ (spaces ind ++ '\x7d' :: rest)))),
            lk, ck + 1, ⟨.colon, [':'], lk, ck⟩⟩ = .ok st0v := by
        unfold consume
        rw [if_pos rfl]
        exact (advance_rw _ _ lk (ck + 1) lk (ck + 1 + 1) _
          (nextToken_space _ lk (ck + 1))).trans hadv0v
      have hcalc := advance_comma ('\n' :: (serObjItems (.cons k2 v2 tl2) ind ++
        (spaces ind ++ '\x7d' :: rest))) l2 c2 dummyTok
      rw [hcalc] at hadv1v
      simp only [Except.ok.injEq] at hadv1v
      subst hadv1v
      obtain ⟨st0', l3, c3, st1', hadv0', hcur', hloop', hadv1'⟩ :=
        rtObjItems (.cons k2 v2 tl2) (fun hc => JsonObject.noConfusion hc) ind rest hcl.2
          hnm.2 hwo.2 hrest (l2 + 1) 1 f' (by omega) ⟨.comma, [','], l2, c2⟩
          (mapInsert k v acc)
      have hconsC : consume .comma "Expected ',' or '\x7d' after object member."
          ⟨'\n' :: (serObjItems (.cons k2 v2 tl2) ind ++ (spaces ind ++ '\x7d' :: rest)),
            l2, c2 + 1, ⟨.comma, [','], l2, c2⟩⟩ = .ok st0' := by
        unfold consume
        rw [if_pos rfl]
        exact (advance_rw _ _ l2 (c2 + 1) (l2 + 1) 1 _
          (nextToken_newline _ l2 (c2 + 1))).trans hadv0'
      refine ⟨_, l3, c3, st1', hin, rfl, ?_, hadv1'⟩
      simp only [objLoop]
      rw [if_pos trivial]
      rw [innerLexeme_quoted]
      rw [show advance ⟨':' :: ' ' :: (serialise v (ind + 2) ++ (',' :: '\n' ::
          (serObjItems (.cons k2 v2 tl2) ind ++ (spaces ind ++ '\x7d' :: rest)))),
          lk, ck, ⟨.string, '"' :: (k ++ ['"']), l, c + (ind + 2)⟩⟩ =
        .ok ⟨' ' :: (serialise v (ind + 2) ++ (',' :: '\n' ::
          (serObjItems (.cons k2 v2 tl2) ind ++ (spaces ind ++ '\x7d' :: rest)))),
          lk, ck + 1, ⟨.colon, [':'], lk, ck⟩⟩ from advance_colon _ lk ck _]
      dsimp only
      rw [hconsColon]
      dsimp only
      rw [hpv]
      dsimp only
      rw [if_neg (show ¬TokenType.comma = TokenType.rightBrace from
        fun hc => TokenType.noConfusion hc)]
      rw [hconsC]
      dsimp only
      exact hloop'
end

/-- The serialisation of a value never starts with a byte-order mark, so
`parse`'s BOM strip leaves it unchanged. -/
theorem serialise_stripBOM (v : JsonValue) (ind : Nat) (hnums : numsOkV v = true) :
    stripBOM (serialise v ind) = serialise v ind := by
  cases v with
  | null => exact stripBOM_cons 'n' ('u' :: 'l' :: 'l' :: []) (by decide)
  | bool b =>
    cases b with
    | true => exact stripBOM_cons 't' ('r' :: 'u' :: 'e' :: []) (by decide)
    | false => exact stripBOM_cons 'f' ('a' :: 'l' :: 's' :: 'e' :: []) (by decide)
  | num d =>
    have hok : numberOkB d = true := hnums
    simp only [numberOkB, Bool.and_eq_true] at hok
    cases hrn : renderNumber d with
    | nil =>
      rw [hrn] at hok
      exact absurd hok.1.1 (by decide)
    | cons ch s =>
      have hlex : isNumLexB (ch :: s) = true := by rw [← hrn]; exact hok.1.1
      simp only [isNumLexB, Bool.and_eq_true] at hlex
      have hch := hlex.1
      have hne : ¬ch = Char.ofNat 0xEF := by
        intro hc
        rw [hc] at hch
        exact absurd hch (by decide)
      show stripBOM (renderNumber d) = renderNumber d
      rw [hrn]
      exact stripBOM_cons ch s hne
  | str s => exact stripBOM_cons '"' (s ++ ['"']) (by decide)
  | arr es => exact stripBOM_cons '[' _ (by decide)
  | obj ms => exact stripBOM_cons '\x7b' _ (by decide)

/-- C1 counterexample: the value `1234567` is finite, has no strings at
all (so the claim's hypotheses hold), and every C++ `JsonValue` holds a
sorted object tree, yet `parse(serialise(v))` is *not* structurally equal
to `v`: the serialiser renders the double with `operator<<`'s default
six significant digits, producing `1.23457e+06`, which parses back to
`1234570`. -/
theorem C1_cex_six_digit_rounding :
    cleanV (.num (mkD10 1234567 0)) = true ∧
    wfSortedV (.num (mkD10 1234567 0)) = true ∧
    serialise (.num (mkD10 1234567 0)) 0 = "1.23457e+06".data ∧
    parse (serialise (.num (mkD10 1234567 0)) 0) = .ok (.num (mkD10 123457 1)) ∧
    ¬mkD10 123457 1 = mkD10 1234567 0 := by
  refine ⟨rfl, rfl, ?_, ?_, ?_⟩
  · decide
  · decide
  · decide

/-- C1 (amended): for every value whose string payloads and object keys
contain no control characters, backslashes or quotes (`cleanV`), whose
objects are sorted by key (the `std::map` representation invariant
every C++ `JsonValue` satisfies), and whose number payloads are
exactly representable normal-or-zero doubles — the representation
invariant of the payload type `double` itself — that moreover survive
the serialiser's six-significant-digit `%g` rendering exactly
(`numsOkV`), parsing the serialisation at indent 0 returns exactly
that value. Both number restrictions are necessary: `1234567` is a
finite double but fails the `%g` read-back (see the counterexample),
and a subnormal payload such as `1e-310` serialises to text the parser
rejects through `std::stod`'s underflow `out_of_range`. -/
theorem C1_round_trip_amended (v : JsonValue) (hclean : cleanV v = true)
    (hnums : numsOkV v = true) (hwf : wfSortedV v = true) :
    parse (serialise v 0) = .ok v := by
  have hbom := serialise_stripBOM v 0 hnums
  have hsz : sizeV v ≤ 3 * (serialise v 0).length + 8 := by
    have hlen := serialise_len v 0 hnums
    omega
  obtain ⟨st0, l2, c2, st1, hadv0, hvs, hpv, hadv1⟩ :=
    rtValue v 0 [] hclean hnums hwf (Or.inl rfl) 1 1
      (3 * (serialise v 0).length + 8) hsz ⟨.eof, [], 1, 1⟩
  rw [List.append_nil] at hadv0
  rw [parse_unfold, hbom, hadv0]
  dsimp only
  rw [hpv]

/-- C1 witness: the amended round trip applied to the concrete value
`{"a": 1.5, "b": ["x y", null]}` (clean strings, a number exactly
representable in six significant digits, sorted keys). -/
theorem C1_round_trip_witness :
    parse (serialise (.obj (.cons "a".data (.num (mkD10 15 (-1)))
      (.cons "b".data (.arr (.cons (.str "x y".data) (.cons .null .nil))) .nil))) 0) =
    .ok (.obj (.cons "a".data (.num (mkD10 15 (-1)))
      (.cons "b".data (.arr (.cons (.str "x y".data) (.cons .null .nil))) .nil))) :=
  C1_round_trip_amended _ (by decide) (by decide) (by decide)

end Jason
